import Mathlib

/-!
Verification of the snappy block encoder and framed-stream writer
(`encode.go` of the skyportsystems/snappy repository).

Byte sequences are modelled as `List Nat` with each element below 256
(predicate `BytesP`).  Functions that write into a destination buffer and
return a byte count are modelled as functions returning the list of bytes
written; `d += emit...(dst[d:], ...)` becomes list concatenation, and the
returned count is the length of the produced list.
-/

namespace Snappy

/-- Tag constants of the snappy block format.  Modelled from the spec:
the tag definitions live in `snappy.go`, which is not part of the sources
under verification; the spec fixes `TAG_LITERAL = 0b00`, `TAG_COPY_1 = 0b01`,
`TAG_COPY_2 = 0b10`, `TAG_COPY_4 = 0b11`. -/
def tagLiteral : Nat := 0b00

/-- Modelled from the spec: `TAG_COPY_1 = 0b01`. -/
def tagCopy1 : Nat := 0b01

/-- Modelled from the spec: `TAG_COPY_2 = 0b10`. -/
def tagCopy2 : Nat := 0b10

/-- Modelled from the spec: `MAX_BLOCK_SIZE = 65536` (`maxBlockSize` in
`snappy.go`). -/
def maxBlockSize : Nat := 65536

/-- `inputMargin` constant of `encode.go`. -/
def inputMargin : Nat := 16 - 1

/-- `minNonLiteralBlockSize` constant of `encode.go`. -/
def minNonLiteralBlockSize : Nat := 1 + 1 + inputMargin

/-- The value of a Go `uint8` conversion. -/
def u8 (n : Nat) : Nat := n % 256

/-- The value of a Go `uint32` conversion (from a wider value). -/
def u32 (n : Nat) : Nat := n % 4294967296

/-- All entries of the list are byte values. -/
def BytesP (l : List Nat) : Prop := ∀ b ∈ l, b < 256

/-- `load32(b, i)`: little-endian 32-bit load of `b[i:i+4]`.
Out-of-range indices are modelled by `getD`'s default 0; the safety claim
shows they never occur within `encodeBlock`'s runs. -/
def load32 (b : List Nat) (i : Nat) : Nat :=
  b.getD i 0 ||| b.getD (i+1) 0 <<< 8 ||| b.getD (i+2) 0 <<< 16 ||| b.getD (i+3) 0 <<< 24

/-- `load64(b, i)`: little-endian 64-bit load of `b[i:i+8]`. -/
def load64 (b : List Nat) (i : Nat) : Nat :=
  b.getD i 0 ||| b.getD (i+1) 0 <<< 8 ||| b.getD (i+2) 0 <<< 16 ||| b.getD (i+3) 0 <<< 24 |||
  b.getD (i+4) 0 <<< 32 ||| b.getD (i+5) 0 <<< 40 ||| b.getD (i+6) 0 <<< 48 ||| b.getD (i+7) 0 <<< 56

/-- `emitLiteral(dst, lit)`: the bytes written (header followed by the
literal bytes).  In the Go code `n := uint(len(lit)-1)`; the function is
only invoked with `1 ≤ len(lit)`, so `Nat` subtraction is faithful. -/
def emitLiteral (lit : List Nat) : List Nat :=
  let n := lit.length - 1
  if n < 60 then
    (u8 n <<< 2 ||| tagLiteral) :: lit
  else if n < 1 <<< 8 then
    (60 <<< 2 ||| tagLiteral) :: u8 n :: lit
  else
    (61 <<< 2 ||| tagLiteral) :: u8 n :: u8 (n >>> 8) :: lit

/-- The final chunk written by `emitCopy`: a 3-byte `tagCopy2` chunk, or a
2-byte `tagCopy1` chunk when the remaining length is below 12 and the
offset below 2048 (the last two branches of `emitCopy` in `encode.go`). -/
def emitCopyTail (offset length : Nat) : List Nat :=
  if length ≥ 12 ∨ offset ≥ 2048 then
    [u8 (length - 1) <<< 2 ||| tagCopy2, u8 offset, u8 (offset >>> 8)]
  else
    [u8 (offset >>> 8) <<< 5 ||| u8 (length - 4) <<< 2 ||| tagCopy1, u8 offset]

/-- `emitCopy(dst, offset, length)`: the bytes written.  The Go `for
length >= 68` loop becomes recursion on `length`; the two trailing `if`s
run once the loop exits (i.e. when `length < 68`). -/
def emitCopy (offset length : Nat) : List Nat :=
  if _h : length ≥ 68 then
    -- Emit a length 64 copy, encoded as 3 bytes.
    (63 <<< 2 ||| tagCopy2) :: u8 offset :: u8 (offset >>> 8) ::
      emitCopy offset (length - 64)
  else if length > 64 then
    -- Emit a length 60 copy, encoded as 3 bytes, then the remaining copy.
    (59 <<< 2 ||| tagCopy2) :: u8 offset :: u8 (offset >>> 8) ::
      emitCopyTail offset (length - 60)
  else
    emitCopyTail offset length

/-- `MaxEncodedLen(srcLen)`.  Go's `srcLen` is a non-negative `int`; the
`uint64` arithmetic `32 + n + n/6` cannot overflow for `n ≤ 2^32-1`. -/
def MaxEncodedLen (srcLen : Nat) : Int :=
  if srcLen > 0xffffffff then -1
  else if 32 + srcLen + srcLen / 6 > 0xffffffff then -1
  else (32 + srcLen + srcLen / 6 : Int)

/-- `binary.PutUvarint`: little-endian base-128 with continuation bit. -/
def putUvarint (x : Nat) : List Nat :=
  if _h : x ≥ 0x80 then (u8 x ||| 0x80) :: putUvarint (x >>> 7) else [x]
termination_by x
decreasing_by
  have : x >>> 7 = x / 128 := by simp [Nat.shiftRight_eq_div_pow]
  omega

/-- `hash(u, shift)` of `encode.go`: multiplicative hash in `uint32`
arithmetic. -/
def hash (u shift : Nat) : Nat := ((u * 0x1e35a7bd) % 4294967296) >>> shift

/-- `maxTableSize` constant of `encodeBlock`. -/
def maxTableSize : Nat := 1 <<< 14

/-- `tableMask` constant of `encodeBlock`. -/
def tableMask : Nat := maxTableSize - 1

/-- The table-sizing loop of `encodeBlock`
(`for tableSize < maxTableSize && tableSize < len(src) { shift--; tableSize *= 2 }`),
parameterized by the number `k` of doublings performed so far, so that
`tableSize = 256 * 2^k` and `shift = 24 - k`.  Returns the final `k`. -/
def tsLoop (n k : Nat) : Nat :=
  if h : 256 * 2 ^ k < maxTableSize ∧ 256 * 2 ^ k < n then tsLoop n (k + 1) else k
termination_by 6 - k
decreasing_by
  have h14 : maxTableSize = 16384 := by decide
  have : k < 6 := by
    by_contra hk
    have : (2:Nat) ^ 6 ≤ 2 ^ k := Nat.pow_le_pow_right (by norm_num) (by omega)
    omega
  omega

/-- The `tableSize` local variable of `encodeBlock` after the sizing loop. -/
def tableSizeFor (n : Nat) : Nat := 256 * 2 ^ tsLoop n 0

/-- The `shift` local variable of `encodeBlock` after the sizing loop
(initially `32 - 8`, decremented once per doubling). -/
def shiftFor (n : Nat) : Nat := 32 - 8 - tsLoop n 0

/-- The match-extension loop of `encodeBlock`
(`for i := candidate + 4; s < len(src) && src[i] == src[s]; i, s = i+1, s+1`),
returning the final cursor `s`. -/
def extendMatch (src : List Nat) (i s : Nat) : Nat :=
  if h : s < src.length ∧ src.getD i 0 = src.getD s 0 then extendMatch src (i + 1) (s + 1)
  else s
termination_by src.length - s

/-- The chunks emitted by the encoder, before serialization: a literal run
(carrying its bytes) or a copy `(offset, length)`.  `encodeBlock`'s calls
`emitLiteral(dst[d:], src[nextEmit:s])` and `emitCopy(dst[d:], o, l)`
produce `Op.lit (src[nextEmit:s])` and `Op.cop o l`; serializing an op
list with `opBytes`/`opsBytes` yields exactly the bytes `encodeBlock`
writes to `dst`. -/
inductive Op where
  | lit (bytes : List Nat)
  | cop (offset length : Nat)
deriving DecidableEq

/-- Serialize one op with the corresponding emitter. -/
def opBytes : Op → List Nat
  | .lit l => emitLiteral l
  | .cop o n => emitCopy o n

/-- Serialize an op sequence. -/
def opsBytes (ops : List Op) : List Nat := (ops.map opBytes).flatten

/-- The number of uncompressed bytes an op covers. -/
def opLen : Op → Nat
  | .lit l => l.length
  | .cop _ n => n

/-- Total uncompressed length covered by an op sequence. -/
def opsLen (ops : List Op) : Nat := (ops.map opLen).sum

/-- The `table[...uint16]` of `encodeBlock`, as a function from index to
stored value. -/
def updTable (t : Nat → Nat) (i v : Nat) : Nat → Nat :=
  fun j => if j = i then v else t j

/-- The control state of `encodeBlock`'s goto-structured main loop.
`search` is the head of the inner candidate-search loop (with `s := nextS`
about to run); the `skip` variable is carried as `32 + t` (it starts at 32
and only grows, which the parameterization makes evident).  `copy` is the
head of the copy-emission loop, entered with a 4-byte match between
`cursor` and `candidate` and no literal bytes pending before `cursor`. -/
inductive Phase where
  | search (table : Nat → Nat) (nextEmit nextHash t nextS : Nat)
  | copy (table : Nat → Nat) (cursor candidate : Nat)

/-- The `emitRemainder` tail of `encodeBlock`. -/
def remainderOps (src : List Nat) (nextEmit : Nat) : List Op :=
  if nextEmit < src.length then [.lit (src.drop nextEmit)] else []

/-- The value of a Go `uint16` conversion. -/
def u16 (n : Nat) : Nat := n % 65536

/-- The cursor never moves backwards in the match-extension loop. -/
theorem le_extendMatch (src : List Nat) (i s : Nat) : s ≤ extendMatch src i s := by
  induction i, s using extendMatch.induct src with
  | case1 i s h ih => rw [extendMatch]; simp only [h, and_self, dite_true]; omega
  | case2 i s h => rw [extendMatch]; simp only [dif_neg h]; omega

/-- The match-extension loop stops at the end of the input. -/
theorem extendMatch_le_length (src : List Nat) (i s : Nat) (hs : s ≤ src.length) :
    extendMatch src i s ≤ src.length := by
  induction i, s using extendMatch.induct src with
  | case1 i s h ih => rw [extendMatch]; simp only [h, and_self, dite_true]; exact ih (by omega)
  | case2 i s h => rw [extendMatch]; simp only [dif_neg h]; exact hs

/-- The main loop of `encodeBlock`, transcribed as a state machine on
`Phase` (the Go code uses `goto`; each `Phase` constructor is a loop head).
Fixed parameters: the block `src`, the hash `shift`, and
`sLimit = len(src) - inputMargin`. -/
def encLoop (src : List Nat) (shift sLimit : Nat) : Phase → List Op
  | .search table nextEmit nextHash t nextS₀ =>
    -- one iteration of the candidate-search loop; `s := nextS`
    let s := nextS₀
    let bytesBetweenHashLookups := (32 + t) >>> 5
    let nextS := s + bytesBetweenHashLookups
    let t' := t + bytesBetweenHashLookups
    if _h : nextS > sLimit then remainderOps src nextEmit
    else
      let candidate := table (nextHash &&& tableMask)
      let table' := updTable table (nextHash &&& tableMask) (u16 s)
      let nextHash' := hash (load32 src nextS) shift
      if load32 src s = load32 src candidate then
        -- a 4-byte match: emit the pending literal, enter the copy loop
        .lit ((src.drop nextEmit).take (s - nextEmit)) ::
          encLoop src shift sLimit (.copy table' s candidate)
      else
        encLoop src shift sLimit (.search table' nextEmit nextHash' t' nextS)
  | .copy table cursor candidate =>
    -- one iteration of the copy-emission loop; `base := s; s += 4` and the
    -- byte-wise extension loop collapse into one `extendMatch` call
    let s := extendMatch src (candidate + 4) (cursor + 4)
    .cop (cursor - candidate) (s - cursor) ::
      (if _h2 : s ≥ sLimit then remainderOps src s
       else
        let x := load64 src (s - 1)
        let prevHash := hash (u32 x) shift
        let table1 := updTable table (prevHash &&& tableMask) (u16 (s - 1))
        let currHash := hash (u32 (x >>> 8)) shift
        let cand2 := table1 (currHash &&& tableMask)
        let table2 := updTable table1 (currHash &&& tableMask) (u16 s)
        if u32 (x >>> 8) = load32 src cand2 then
          encLoop src shift sLimit (.copy table2 s cand2)
        else
          encLoop src shift sLimit
            (.search table2 s (hash (u32 (x >>> 16)) shift) 0 (s + 1)))
termination_by ph =>
  match ph with
  | .search _ _ _ _ nextS => 2 * (sLimit + 1 - nextS) + 1
  | .copy _ cursor _ => 2 * (sLimit + 1 - cursor)
decreasing_by
  · omega
  · have hb : (32 + t) >>> 5 = (32 + t) / 32 := by
      simp [Nat.shiftRight_eq_div_pow]
    omega
  · have h4 := le_extendMatch src (candidate + 4) (cursor + 4)
    omega
  · have h4 := le_extendMatch src (candidate + 4) (cursor + 4)
    omega

/-- `encodeBlock(dst, src)`, as the op sequence it emits.  The hash table
starts zeroed; the search starts at `s = 1` with
`nextHash = hash(load32(src, s), shift)`, `nextEmit = 0`, `skip = 32`. -/
def encodeBlockOps (src : List Nat) : List Op :=
  encLoop src (shiftFor src.length) (src.length - inputMargin)
    (.search (fun _ => 0) 0 (hash (load32 src 1) (shiftFor src.length)) 0 1)

/-- One block of `Encode`'s driver loop: short blocks become a single
literal, the rest go through `encodeBlock`. -/
def blockOps (p : List Nat) : List Op :=
  if p.length < minNonLiteralBlockSize then [.lit p] else encodeBlockOps p

/-- The op sequence emitted by `Encode`'s driver loop, which slices off up
to `maxBlockSize` bytes per block. -/
def encodeOps (src : List Nat) : List Op :=
  if src.length = 0 then []
  else if src.length ≤ maxBlockSize then blockOps src
  else blockOps (src.take maxBlockSize) ++ encodeOps (src.drop maxBlockSize)
termination_by src.length
decreasing_by
  have : maxBlockSize = 65536 := by norm_num [maxBlockSize]
  simp only [List.length_drop]
  omega

/-- The bytes `Encode` writes after the leading varint. -/
def encodeBytes (src : List Nat) : List Nat := opsBytes (encodeOps src)

/-- The full bytes `Encode` produces: the uncompressed length as a varint,
then the block stream. -/
def encodeContent (src : List Nat) : List Nat := putUvarint src.length ++ encodeBytes src

/-- `Encode(dst, src)`.  `none` models the `panic(ErrTooLarge)` branch.
The returned bytes do not depend on `dst` (a caller-supplied `dst` only
lets Go avoid an allocation), so the model ignores it. -/
def Encode (dst src : List Nat) : Option (List Nat) :=
  if MaxEncodedLen src.length < 0 then none
  else some (encodeContent src)

/-- Decoded position a phase stands at: `nextEmit` for the search loop
(bytes before it are covered by emitted ops), the copy `base` for the
copy loop. -/
def phasePos : Phase → Nat
  | .search _ nextEmit _ _ _ => nextEmit
  | .copy _ cursor _ => cursor

/-- Slack of the output-size ledger at each loop head. -/
def costSlack : Phase → Nat
  | .search _ _ _ _ _ => 0
  | .copy _ _ _ => 5

/-- From a search state, the emitted ops always start with a non-empty
literal. -/
def headLitP : Phase → List Op → Prop
  | .search _ _ _ _ _, ops => ∃ l rest, ops = .lit l :: rest ∧ 1 ≤ l.length
  | .copy _ _ _, _ => True

/-- Data invariant of `encodeBlock`'s loops: hash-table entries are below
the cursor (so copies point strictly backwards), the pending literal
start `nextEmit` is before the cursor and within `sLimit`, and the copy
loop holds a genuine 4-byte match. -/
def PhaseInv (src : List Nat) (sLimit : Nat) : Phase → Prop
  | .search table nextEmit _ _ nextS =>
      (∀ j, table j < nextS) ∧ nextEmit < nextS ∧ nextEmit ≤ sLimit
  | .copy table cursor candidate =>
      (∀ j, table j ≤ cursor) ∧ candidate < cursor ∧ cursor < sLimit ∧
        load32 src cursor = load32 src candidate

/-- One unfolding of the search loop, with the `let`s of the definition
exposed as equations. -/
theorem encLoop_search_step (src : List Nat) (shift sLimit : Nat)
    (table : Nat → Nat) (nextEmit nextHash t nextS₀ : Nat)
    (b nextS candidate : Nat) (table' : Nat → Nat)
    (hb : b = (32 + t) >>> 5) (hnS : nextS = nextS₀ + b)
    (hcand : candidate = table (nextHash &&& tableMask))
    (ht' : table' = updTable table (nextHash &&& tableMask) (u16 nextS₀)) :
    encLoop src shift sLimit (.search table nextEmit nextHash t nextS₀) =
      if nextS > sLimit then remainderOps src nextEmit
      else if load32 src nextS₀ = load32 src candidate then
        .lit ((src.drop nextEmit).take (nextS₀ - nextEmit)) ::
          encLoop src shift sLimit (.copy table' nextS₀ candidate)
      else
        encLoop src shift sLimit
          (.search table' nextEmit (hash (load32 src nextS) shift) (t + b) nextS) := by
  subst hb hnS hcand ht'
  conv_lhs => rw [encLoop]
  simp only [dite_eq_ite]

/-- One unfolding of the copy loop, with the `let`s of the definition
exposed as equations. -/
theorem encLoop_copy_step (src : List Nat) (shift sLimit : Nat)
    (table : Nat → Nat) (cursor candidate : Nat)
    (s x : Nat) (table1 : Nat → Nat) (cand2 : Nat) (table2 : Nat → Nat)
    (hs : s = extendMatch src (candidate + 4) (cursor + 4))
    (hx : x = load64 src (s - 1))
    (ht1 : table1 = updTable table (hash (u32 x) shift &&& tableMask) (u16 (s - 1)))
    (hc2 : cand2 = table1 (hash (u32 (x >>> 8)) shift &&& tableMask))
    (ht2 : table2 = updTable table1 (hash (u32 (x >>> 8)) shift &&& tableMask) (u16 s)) :
    encLoop src shift sLimit (.copy table cursor candidate) =
      .cop (cursor - candidate) (s - cursor) ::
        (if sLimit ≤ s then remainderOps src s
         else if u32 (x >>> 8) = load32 src cand2 then
           encLoop src shift sLimit (.copy table2 s cand2)
         else
           encLoop src shift sLimit
             (.search table2 s (hash (u32 (x >>> 16)) shift) 0 (s + 1))) := by
  subst hs hx ht1 hc2 ht2
  conv_lhs => rw [encLoop]
  simp only [dite_eq_ite, ge_iff_le]
  rfl

/-! ### Bit-arithmetic facts about the byte-level primitives -/

theorem lor_shiftLeft_eq (a b k : Nat) (ha : a < 2 ^ k) :
    a ||| b <<< k = b * 2 ^ k + a := by
  rw [Nat.shiftLeft_eq, Nat.lor_comm, Nat.mul_comm b (2 ^ k),
    ← Nat.mul_add_lt_is_or ha]

theorem getD_lt_256 {l : List Nat} (hl : BytesP l) (i : Nat) : l.getD i 0 < 256 := by
  rw [List.getD_eq_getElem?_getD]
  cases h : l[i]? with
  | none => simp
  | some a =>
    have : a ∈ l := List.getElem?_mem h
    simpa using hl a this

theorem load32_eq_sum {b : List Nat} (hb : BytesP b) (i : Nat) :
    load32 b i = b.getD i 0 + b.getD (i+1) 0 * 256 + b.getD (i+2) 0 * 65536 +
      b.getD (i+3) 0 * 16777216 := by
  have g0 := getD_lt_256 hb i
  have g1 := getD_lt_256 hb (i+1)
  have g2 := getD_lt_256 hb (i+2)
  rw [load32, lor_shiftLeft_eq _ _ 8 (by omega),
    lor_shiftLeft_eq _ _ 16 (by omega), lor_shiftLeft_eq _ _ 24 (by omega)]
  omega

theorem load64_eq_sum {b : List Nat} (hb : BytesP b) (i : Nat) :
    load64 b i = b.getD i 0 + b.getD (i+1) 0 * 256 + b.getD (i+2) 0 * 65536 +
      b.getD (i+3) 0 * 16777216 + b.getD (i+4) 0 * 4294967296 +
      b.getD (i+5) 0 * 1099511627776 + b.getD (i+6) 0 * 281474976710656 +
      b.getD (i+7) 0 * 72057594037927936 := by
  have g0 := getD_lt_256 hb i
  have g1 := getD_lt_256 hb (i+1)
  have g2 := getD_lt_256 hb (i+2)
  have g3 := getD_lt_256 hb (i+3)
  have g4 := getD_lt_256 hb (i+4)
  have g5 := getD_lt_256 hb (i+5)
  have g6 := getD_lt_256 hb (i+6)
  rw [load64, lor_shiftLeft_eq _ _ 8 (by omega), lor_shiftLeft_eq _ _ 16 (by omega),
    lor_shiftLeft_eq _ _ 24 (by omega), lor_shiftLeft_eq _ _ 32 (by omega),
    lor_shiftLeft_eq _ _ 40 (by omega), lor_shiftLeft_eq _ _ 48 (by omega),
    lor_shiftLeft_eq _ _ 56 (by omega)]
  omega

/-- Equal 32-bit loads give equal bytes (base-256 digits are unique). -/
theorem load32_inj {b : List Nat} (hb : BytesP b) {i j : Nat}
    (h : load32 b i = load32 b j) :
    ∀ k < 4, b.getD (i + k) 0 = b.getD (j + k) 0 := by
  rw [load32_eq_sum hb, load32_eq_sum hb] at h
  have gi0 := getD_lt_256 hb i
  have gi1 := getD_lt_256 hb (i+1)
  have gi2 := getD_lt_256 hb (i+2)
  have gi3 := getD_lt_256 hb (i+3)
  have gj0 := getD_lt_256 hb j
  have gj1 := getD_lt_256 hb (j+1)
  have gj2 := getD_lt_256 hb (j+2)
  have gj3 := getD_lt_256 hb (j+3)
  intro k hk
  interval_cases k
  · simp only [Nat.add_zero]; omega
  · omega
  · omega
  · omega

/-- The low 32 bits of `load64 b i` are `load32 b i`. -/
theorem u32_load64 {b : List Nat} (hb : BytesP b) (i : Nat) :
    u32 (load64 b i) = load32 b i := by
  rw [u32, load64_eq_sum hb, load32_eq_sum hb]
  have g0 := getD_lt_256 hb i
  have g1 := getD_lt_256 hb (i+1)
  have g2 := getD_lt_256 hb (i+2)
  have g3 := getD_lt_256 hb (i+3)
  omega

/-- Shifting `load64 b i` right by 8 bits and truncating gives the 32-bit
load one position later. -/
theorem u32_load64_shift8 {b : List Nat} (hb : BytesP b) (i : Nat) :
    u32 (load64 b i >>> 8) = load32 b (i + 1) := by
  rw [u32, Nat.shiftRight_eq_div_pow, load64_eq_sum hb, load32_eq_sum hb]
  have g0 := getD_lt_256 hb i
  have g1 := getD_lt_256 hb (i+1)
  have g2 := getD_lt_256 hb (i+2)
  have g3 := getD_lt_256 hb (i+3)
  have g4 := getD_lt_256 hb (i+4)
  have e1 : i + 1 + 1 = i + 2 := by omega
  have e2 : i + 1 + 2 = i + 3 := by omega
  have e3 : i + 1 + 3 = i + 4 := by omega
  rw [e1, e2, e3]
  omega

/-- Shifting `load64 b i` right by 16 bits and truncating gives the 32-bit
load two positions later. -/
theorem u32_load64_shift16 {b : List Nat} (hb : BytesP b) (i : Nat) :
    u32 (load64 b i >>> 16) = load32 b (i + 2) := by
  rw [u32, Nat.shiftRight_eq_div_pow, load64_eq_sum hb, load32_eq_sum hb]
  have g0 := getD_lt_256 hb i
  have g1 := getD_lt_256 hb (i+1)
  have g2 := getD_lt_256 hb (i+2)
  have g3 := getD_lt_256 hb (i+3)
  have g4 := getD_lt_256 hb (i+4)
  have g5 := getD_lt_256 hb (i+5)
  have e1 : i + 2 + 1 = i + 3 := by omega
  have e2 : i + 2 + 2 = i + 4 := by omega
  have e3 : i + 2 + 3 = i + 5 := by omega
  rw [e1, e2, e3]
  omega

theorem and_tableMask_lt (x : Nat) : x &&& tableMask < 16384 := by
  have : tableMask = 2 ^ 14 - 1 := by decide
  rw [this, Nat.and_pow_two_sub_one_eq_mod]
  omega

theorem u16_eq_of_lt {n : Nat} (h : n < 65536) : u16 n = n := Nat.mod_eq_of_lt h

/-! ### Characterization of the emitters -/

/-- Header size of a literal chunk of length `L` as emitted by
`emitLiteral` (`n = L - 1`; 1, 2 or 3 bytes). -/
def litHdrLen (L : Nat) : Nat := if L ≤ 60 then 1 else if L ≤ 256 then 2 else 3

theorem emitLiteral_eq {lit : List Nat} (h1 : 1 ≤ lit.length) (h2 : lit.length ≤ 65536) :
    emitLiteral lit =
      (if lit.length ≤ 60 then [(lit.length - 1) * 4]
       else if lit.length ≤ 256 then [240, lit.length - 1]
       else [244, (lit.length - 1) % 256, (lit.length - 1) / 256]) ++ lit := by
  rw [emitLiteral]
  rcases Nat.lt_or_ge (lit.length - 1) 60 with h | h
  · have e60 : lit.length ≤ 60 := by omega
    simp only [h, if_pos, e60, if_true]
    have hu : u8 (lit.length - 1) = lit.length - 1 := Nat.mod_eq_of_lt (by omega)
    rw [hu]
    have : (lit.length - 1) <<< 2 ||| tagLiteral = (lit.length - 1) * 4 := by
      rw [tagLiteral]; simp [Nat.shiftLeft_eq]
    simp [this]
  · rcases Nat.lt_or_ge (lit.length - 1) 256 with h' | h'
    · have e60 : ¬ lit.length ≤ 60 := by omega
      have e256 : lit.length ≤ 256 := by omega
      simp only [if_neg (by omega : ¬ lit.length - 1 < 60), if_pos (by omega : lit.length - 1 < 1 <<< 8),
        e60, if_false, e256, if_true]
      have hu : u8 (lit.length - 1) = lit.length - 1 := Nat.mod_eq_of_lt (by omega)
      have h240 : (60 : Nat) <<< 2 ||| tagLiteral = 240 := by decide
      rw [hu, h240]
      rfl
    · have e256 : ¬ lit.length ≤ 256 := by omega
      have h8 : ¬ lit.length - 1 < 1 <<< 8 := by
        simpa using by omega
      simp only [if_neg (by omega : ¬ lit.length - 1 < 60), if_neg h8,
        if_neg (by omega : ¬ lit.length ≤ 60), if_neg e256]
      have hu8 : u8 (lit.length - 1) = (lit.length - 1) % 256 := rfl
      have hsh : u8 ((lit.length - 1) >>> 8) = (lit.length - 1) / 256 := by
        rw [u8, Nat.shiftRight_eq_div_pow]
        exact Nat.mod_eq_of_lt (by omega)
      have h244 : (61 : Nat) <<< 2 ||| tagLiteral = 244 := by decide
      rw [hu8, hsh, h244]
      rfl

theorem emitLiteral_length {lit : List Nat} (h1 : 1 ≤ lit.length) (h2 : lit.length ≤ 65536) :
    (emitLiteral lit).length = litHdrLen lit.length + lit.length := by
  rw [emitLiteral_eq h1 h2, litHdrLen]
  split <;> [skip; split] <;> simp <;> omega

/-- The byte written by the `tagCopy1` branch of `emitCopy`. -/
theorem copy1_byte_eq {offset length : Nat} (ho : offset < 2048) (h4 : 4 ≤ length)
    (h12 : length < 12) :
    u8 (offset >>> 8) <<< 5 ||| u8 (length - 4) <<< 2 ||| tagCopy1 =
      (offset / 256) * 32 + (length - 4) * 4 + 1 := by
  have hsh : u8 (offset >>> 8) = offset / 256 := by
    rw [u8, Nat.shiftRight_eq_div_pow]
    exact Nat.mod_eq_of_lt (by omega)
  have hl : u8 (length - 4) = length - 4 := Nat.mod_eq_of_lt (by omega)
  rw [hsh, hl, Nat.lor_comm ((offset / 256) <<< 5), lor_shiftLeft_eq _ _ 5 (by
    rw [Nat.shiftLeft_eq]; omega)]
  have e1 : offset / 256 * 2 ^ 5 + (length - 4) <<< 2 =
      (offset / 256 * 8 + (length - 4)) <<< 2 := by
    rw [Nat.shiftLeft_eq, Nat.shiftLeft_eq]; ring
  rw [e1, Nat.lor_comm, tagCopy1, lor_shiftLeft_eq 1 _ 2 (by omega)]
  ring

/-- The tag byte of a `tagCopy2` chunk with length code `c`. -/
theorem copy2_byte_eq (c : Nat) (hc : c < 64) :
    u8 c <<< 2 ||| tagCopy2 = c * 4 + 2 := by
  have hu : u8 c = c := Nat.mod_eq_of_lt (by omega)
  rw [hu, Nat.lor_comm, tagCopy2, lor_shiftLeft_eq 2 _ 2 (by omega)]
  ring

theorem emitCopyTail_eq {offset length : Nat} (ho1 : 1 ≤ offset) (ho2 : offset ≤ 65535)
    (h4 : 4 ≤ length) (h64 : length ≤ 64) :
    emitCopyTail offset length =
      if 12 ≤ length ∨ 2048 ≤ offset then
        [(length - 1) * 4 + 2, offset % 256, offset / 256]
      else
        [(offset / 256) * 32 + (length - 4) * 4 + 1, offset % 256] := by
  have hsh : u8 (offset >>> 8) = offset / 256 := by
    rw [u8, Nat.shiftRight_eq_div_pow]
    exact Nat.mod_eq_of_lt (by omega)
  rw [emitCopyTail]
  split
  · next hcond =>
    rw [copy2_byte_eq _ (by omega), hsh]
    rfl
  · next hcond =>
    push_neg at hcond
    rw [copy1_byte_eq (by omega) h4 (by omega)]
    rfl

theorem emitCopyTail_length (offset length : Nat) :
    (emitCopyTail offset length).length = if 12 ≤ length ∨ 2048 ≤ offset then 3 else 2 := by
  rw [emitCopyTail]
  split <;> simp_all

/-- Closed form of `emitCopy`: `p = (length-4)/64` peeled length-64
`tagCopy2` chunks, an optional length-60 `tagCopy2` chunk, and a final
2- or 3-byte chunk. -/
theorem emitCopy_eq {offset length : Nat} (ho1 : 1 ≤ offset) (ho2 : offset ≤ 65535)
    (h4 : 4 ≤ length) (h65535 : length ≤ 65535) :
    emitCopy offset length =
      (List.replicate ((length - 4) / 64) [254, offset % 256, offset / 256]).flatten ++
        (if 64 < length - 64 * ((length - 4) / 64) then
          [238, offset % 256, offset / 256] ++
            emitCopyTail offset (length - 64 * ((length - 4) / 64) - 60)
        else emitCopyTail offset (length - 64 * ((length - 4) / 64))) := by
  have hsh : u8 (offset >>> 8) = offset / 256 := by
    rw [u8, Nat.shiftRight_eq_div_pow]
    exact Nat.mod_eq_of_lt (by omega)
  have hu8 : u8 offset = offset % 256 := rfl
  induction length using Nat.strong_induction_on with
  | _ length ih =>
  rw [emitCopy]
  rcases Nat.lt_or_ge length 68 with hlt | hge
  · rw [dif_neg (by omega)]
    have hp : (length - 4) / 64 = 0 := by omega
    rcases Nat.lt_or_ge 64 length with hgt | hle
    · rw [if_pos hgt, hp]
      have h238 : (59 : Nat) <<< 2 ||| tagCopy2 = 238 := by decide
      rw [h238, hsh, hu8]
      simp [hgt]
    · rw [if_neg (by omega), hp]
      simp [show ¬ (64 < length) from by omega]
  · rw [dif_pos hge]
    have h254 : (63 : Nat) <<< 2 ||| tagCopy2 = 254 := by decide
    have hp : (length - 4) / 64 = (length - 64 - 4) / 64 + 1 := by omega
    rw [h254, hsh, hu8, ih (length - 64) (by omega) (by omega) (by omega), hp]
    have e : length - 64 * ((length - 64 - 4) / 64 + 1) =
        length - 64 - 64 * ((length - 64 - 4) / 64) := by omega
    rw [e, List.replicate_succ]
    simp

/-! ### The table-sizing loop -/

theorem tsLoop_le (n k : Nat) (h : k ≤ 6) : tsLoop n k ≤ 6 := by
  induction k using tsLoop.induct n with
  | case1 k hg ih =>
    rw [tsLoop, dif_pos hg]
    refine ih ?_
    rcases hg with ⟨hg1, _⟩
    have h14 : maxTableSize = 16384 := by decide
    by_contra hk
    have : (2:Nat) ^ 6 ≤ 2 ^ k := Nat.pow_le_pow_right (by norm_num) (by omega)
    omega
  | case2 k hg => rw [tsLoop, dif_neg hg]; exact h

theorem tsLoop_ge (n k : Nat) : k ≤ tsLoop n k := by
  induction k using tsLoop.induct n with
  | case1 k hg ih => rw [tsLoop, dif_pos hg]; omega
  | case2 k hg => rw [tsLoop, dif_neg hg]

/-- The sizing loop exits with its guard false. -/
theorem tsLoop_exit (n k : Nat) :
    ¬ (256 * 2 ^ tsLoop n k < maxTableSize ∧ 256 * 2 ^ tsLoop n k < n) := by
  induction k using tsLoop.induct n with
  | case1 k hg ih => rw [tsLoop, dif_pos hg]; exact ih
  | case2 k hg => rw [tsLoop, dif_neg hg]; exact hg

/-- If the loop doubled at all, the size before the last doubling was
still below `n`. -/
theorem tsLoop_last (n k : Nat) :
    tsLoop n k = k ∨ (k < tsLoop n k ∧ 256 * 2 ^ (tsLoop n k - 1) < n) := by
  induction k using tsLoop.induct n with
  | case1 k hg ih =>
    rw [tsLoop, dif_pos hg]
    rcases ih with h1 | h2
    · right
      constructor
      · omega
      · rw [h1]
        simpa using hg.2
    · right
      exact ⟨by omega, h2.2⟩
  | case2 k hg => rw [tsLoop, dif_neg hg]; left; rfl

/-! ### The uvarint prefix -/

/-- Modelled from the spec: the decoder side of the unsigned varint that
heads a snappy block ("an unsigned varint holding the uncompressed
length"); the standard base-128 little-endian format of
`binary.PutUvarint`/`binary.Uvarint`. -/
def readUvarint : List Nat → Option (Nat × List Nat)
  | [] => none
  | b :: rest =>
    if b < 128 then some (b, rest)
    else
      match readUvarint rest with
      | none => none
      | some (x, r) => some (x * 128 + b % 128, r)

theorem lor_128_eq {a : Nat} (ha : a < 128) : a ||| 128 = a + 128 := by
  have := lor_shiftLeft_eq a 1 7 (by omega)
  simpa [Nat.add_comm] using this

theorem u8_lor_128 (x : Nat) : u8 x ||| 0x80 = x % 128 + 128 := by
  have h2 : x % 256 = x % 128 ∨ x % 256 = x % 128 + 128 := by omega
  have key : x % 128 ||| 128 = x % 128 + 128 := lor_128_eq (by omega)
  rcases h2 with h | h
  · rw [u8, h]
    exact key
  · rw [u8, h, ← key, Nat.lor_assoc]
    simp [key]

/-- Round trip of the varint prefix. -/
theorem readUvarint_putUvarint (x : Nat) (tail : List Nat) :
    readUvarint (putUvarint x ++ tail) = some (x, tail) := by
  induction x using putUvarint.induct with
  | case1 x hge ih =>
    rw [putUvarint, dif_pos hge, List.cons_append, readUvarint]
    have hb := u8_lor_128 x
    have hx7 : x >>> 7 = x / 128 := by
      simp [Nat.shiftRight_eq_div_pow]
    rw [hb, if_neg (by omega), ih]
    show some (x >>> 7 * 128 + (x % 128 + 128) % 128, tail) = some (x, tail)
    have e : x >>> 7 * 128 + (x % 128 + 128) % 128 = x := by
      rw [hx7]; omega
    rw [e]
  | case2 x hlt =>
    rw [putUvarint, dif_neg hlt, List.cons_append, readUvarint,
      if_pos (by omega)]
    simp

/-- `putUvarint` produces at most `k+1` bytes for `x < 2^(7(k+1))`. -/
theorem putUvarint_length_le (k : Nat) : ∀ x : Nat, x < 2 ^ (7 * (k + 1)) →
    (putUvarint x).length ≤ k + 1 := by
  induction k with
  | zero =>
    intro x hx
    have h128 : (2:Nat) ^ (7 * (0 + 1)) = 128 := by norm_num
    rw [putUvarint, dif_neg (by omega)]
    simp
  | succ k ih =>
    intro x hx
    rw [putUvarint]
    split
    · next hge =>
      have hx7 : x >>> 7 = x / 128 := by
        simp [Nat.shiftRight_eq_div_pow]
      have : x >>> 7 < 2 ^ (7 * (k + 1)) := by
        rw [hx7]
        have h1 : 2 ^ (7 * (k + 1 + 1)) = 2 ^ (7 * (k + 1)) * 128 := by
          rw [show 7 * (k + 1 + 1) = 7 * (k + 1) + 7 by ring, Nat.pow_add]
        rw [h1] at hx
        omega
      have := ih _ this
      simp only [List.length_cons]
      omega
    · simp

/-! ### The op-level decoder -/

/-- Modelled from the spec: a conforming decoder's copy operation, which
appends `n` bytes one at a time, each read `o` positions back from the
current end of the output (overlapping copies re-read bytes appended by
the same op). -/
def copyFrom (out : List Nat) (o : Nat) : Nat → List Nat
  | 0 => out
  | n + 1 => copyFrom (out ++ [out.getD (out.length - o) 0]) o n

/-- Modelled from the spec: the effect of one decoded chunk on the
decoder's output. -/
def applyOp (out : List Nat) : Op → List Nat
  | .lit l => out ++ l
  | .cop o n => copyFrom out o n

/-- Modelled from the spec: the decoder's output after a chunk sequence. -/
def applyOps (out : List Nat) (ops : List Op) : List Nat := ops.foldl applyOp out

theorem copyFrom_length (o : Nat) : ∀ (n : Nat) (out : List Nat),
    (copyFrom out o n).length = out.length + n := by
  intro n
  induction n with
  | zero => intro out; rfl
  | succ n ih =>
    intro out
    rw [copyFrom, ih]
    simp
    omega

theorem copyFrom_add (o a b : Nat) : ∀ (out : List Nat),
    copyFrom out o (a + b) = copyFrom (copyFrom out o a) o b := by
  induction a with
  | zero => intro out; rw [Nat.zero_add]; rfl
  | succ a ih =>
    intro out
    have e : a + 1 + b = (a + b) + 1 := by omega
    rw [e, copyFrom, copyFrom, ih]

theorem applyOps_append (out : List Nat) (l1 l2 : List Op) :
    applyOps out (l1 ++ l2) = applyOps (applyOps out l1) l2 := by
  simp [applyOps]

theorem applyOps_length (l : List Op) : ∀ out : List Nat,
    (applyOps out l).length = out.length + opsLen l := by
  induction l with
  | nil => intro out; simp [applyOps, opsLen]
  | cons op rest ih =>
    intro out
    rw [applyOps, List.foldl_cons, ← applyOps, ih]
    cases op with
    | lit l => simp [applyOp, opsLen, opLen]; omega
    | cop o n => simp [applyOp, opsLen, opLen, copyFrom_length]; omega

theorem applyOps_nil (out : List Nat) : applyOps out [] = out := rfl

theorem applyOps_cons (out : List Nat) (op : Op) (rest : List Op) :
    applyOps out (op :: rest) = applyOps (applyOp out op) rest := rfl

theorem opsBytes_nil : opsBytes [] = [] := rfl

theorem opsBytes_cons (op : Op) (rest : List Op) :
    opsBytes (op :: rest) = opBytes op ++ opsBytes rest := by
  simp [opsBytes]

theorem opsLen_nil : opsLen [] = 0 := rfl

theorem opsLen_cons (op : Op) (rest : List Op) :
    opsLen (op :: rest) = opLen op + opsLen rest := by
  simp [opsLen]

theorem getD_append_add (pre l : List Nat) (i : Nat) :
    (pre ++ l).getD (pre.length + i) 0 = l.getD i 0 := by
  rw [List.getD_eq_getElem?_getD, List.getD_eq_getElem?_getD,
    List.getElem?_append_right (by omega)]
  congr 2
  omega

theorem getD_take {b i : Nat} (src : List Nat) (h : i < b) :
    (src.take b).getD i 0 = src.getD i 0 := by
  rw [List.getD_eq_getElem?_getD, List.getD_eq_getElem?_getD, List.getElem?_take,
    if_pos h]

theorem take_succ_getD {src : List Nat} {b : Nat} (h : b < src.length) :
    src.take (b + 1) = src.take b ++ [src.getD b 0] := by
  rw [List.take_succ, List.getElem?_eq_getElem h]
  rw [List.getD_eq_getElem?_getD, List.getElem?_eq_getElem h]
  rfl

/-- Decoding a copy op advances the decoded output from `src[0:b]` to
`src[0:b+n]` whenever the source window matches byte-for-byte, even when
the copy overlaps itself (`o < n`). -/
theorem copyFrom_spec (src : List Nat) :
    ∀ (n b o : Nat) (pre : List Nat), 1 ≤ o → o ≤ b → b + n ≤ src.length →
    (∀ k < n, src.getD (b - o + k) 0 = src.getD (b + k) 0) →
    copyFrom (pre ++ src.take b) o n = pre ++ src.take (b + n) := by
  intro n
  induction n with
  | zero => intro b o pre _ _ _ _; rfl
  | succ n ih =>
    intro b o pre ho1 hob hbn hmatch
    rw [copyFrom]
    have hblen : b < src.length := by omega
    have htlen : (src.take b).length = b := by
      simp
      omega
    have hidx : (pre ++ src.take b).length - o = pre.length + (b - o) := by
      simp [htlen]
      omega
    have hbyte : (pre ++ src.take b).getD ((pre ++ src.take b).length - o) 0 =
        src.getD b 0 := by
      rw [hidx, getD_append_add, getD_take src (by omega)]
      have := hmatch 0 (by omega)
      simpa using this
    rw [hbyte, List.append_assoc, ← take_succ_getD hblen]
    have e1 : b + (n + 1) = (b + 1) + n := by omega
    rw [e1]
    refine ih (b + 1) o pre ho1 (by omega) (by omega) ?_
    intro k hk
    have := hmatch (k + 1) (by omega)
    have e2 : b - o + (k + 1) = b + 1 - o + k := by omega
    have e3 : b + (k + 1) = b + 1 + k := by omega
    rw [e2, e3] at this
    exact this

/-- Every byte matched by the extension loop agrees between the two
windows. -/
theorem extendMatch_spec (src : List Nat) (i s : Nat) :
    ∀ k, k < extendMatch src i s - s → src.getD (i + k) 0 = src.getD (s + k) 0 := by
  induction i, s using extendMatch.induct src with
  | case1 i s h ih =>
    rw [extendMatch, dif_pos h]
    intro k hk
    have hext := le_extendMatch src (i + 1) (s + 1)
    cases k with
    | zero => simpa using h.2
    | succ k =>
      have := ih k (by omega)
      have e1 : i + (k + 1) = i + 1 + k := by omega
      have e2 : s + (k + 1) = s + 1 + k := by omega
      rw [e1, e2]
      exact this
  | case2 i s h =>
    rw [extendMatch, dif_neg h]
    intro k hk
    omega

/-! ### Well-formedness of an op sequence -/

/-- Well-formedness of an op sequence starting at decoded position `pos`:
literals are non-empty and at most 65536 bytes; copies have
`1 ≤ offset ≤ 65535`, `4 ≤ length ≤ 65535`, and reference only already
decoded bytes (`offset ≤ pos`). -/
def OpsWF : Nat → List Op → Prop
  | _, [] => True
  | pos, .lit l :: rest => 1 ≤ l.length ∧ l.length ≤ 65536 ∧ OpsWF (pos + l.length) rest
  | pos, .cop o n :: rest =>
      1 ≤ o ∧ o ≤ 65535 ∧ 4 ≤ n ∧ n ≤ 65535 ∧ o ≤ pos ∧ OpsWF (pos + n) rest

theorem OpsWF_mono : ∀ (l : List Op) (p q : Nat), OpsWF p l → p ≤ q → OpsWF q l := by
  intro l
  induction l with
  | nil => intro p q _ _; trivial
  | cons op rest ih =>
    intro p q h hpq
    cases op with
    | lit b =>
      rcases h with ⟨h1, h2, h3⟩
      exact ⟨h1, h2, ih _ _ h3 (by omega)⟩
    | cop o n =>
      rcases h with ⟨h1, h2, h3, h4, h5, h6⟩
      exact ⟨h1, h2, h3, h4, by omega, ih _ _ h6 (by omega)⟩

theorem OpsWF_append : ∀ (l1 l2 : List Op) (p : Nat),
    OpsWF p l1 → OpsWF (p + opsLen l1) l2 → OpsWF p (l1 ++ l2) := by
  intro l1
  induction l1 with
  | nil =>
    intro l2 p _ h2
    simpa [opsLen] using h2
  | cons op rest ih =>
    intro l2 p h1 h2
    rw [opsLen_cons] at h2
    cases op with
    | lit b =>
      rcases h1 with ⟨ha, hb, hc⟩
      refine ⟨ha, hb, ih _ _ hc ?_⟩
      have e : p + b.length + opsLen rest = p + (opLen (.lit b) + opsLen rest) := by
        simp [opLen]
        omega
      rw [e]
      exact h2
    | cop o n =>
      rcases h1 with ⟨ha, hb, hc, hd, he, hf⟩
      refine ⟨ha, hb, hc, hd, he, ih _ _ hf ?_⟩
      have e : p + n + opsLen rest = p + (opLen (.cop o n) + opsLen rest) := by
        simp [opLen]
        omega
      rw [e]
      exact h2

/-- Header-cost bound used for literals followed by a copy. -/
theorem litHdrLen_le {L : Nat} (h : 1 ≤ L) : 6 * litHdrLen L ≤ L + 5 := by
  rw [litHdrLen]
  split
  · omega
  · split <;> omega

/-- Header-cost bound used for trailing literals of length at least 6. -/
theorem litHdrLen_le6 {L : Nat} (h : 6 ≤ L) : 6 * litHdrLen L ≤ L := by
  rw [litHdrLen]
  split
  · omega
  · split <;> omega

theorem OpsWF_nil (p : Nat) : OpsWF p [] := trivial

theorem OpsWF_lit_iff (p : Nat) (l : List Nat) (rest : List Op) :
    OpsWF p (.lit l :: rest) ↔
      1 ≤ l.length ∧ l.length ≤ 65536 ∧ OpsWF (p + l.length) rest := Iff.rfl

theorem OpsWF_cop_iff (p o n : Nat) (rest : List Op) :
    OpsWF p (.cop o n :: rest) ↔
      1 ≤ o ∧ o ≤ 65535 ∧ 4 ≤ n ∧ n ≤ 65535 ∧ o ≤ p ∧ OpsWF (p + n) rest := Iff.rfl

/-- Correctness of the `emitRemainder` tail from decoded position `ne`. -/
theorem remainder_spec (src : List Nat) {ne : Nat} (hne : ne ≤ src.length)
    (hmax : src.length ≤ 65536) :
    OpsWF ne (remainderOps src ne) ∧
    (∀ pre : List Nat, applyOps (pre ++ src.take ne) (remainderOps src ne) = pre ++ src) ∧
    (opsBytes (remainderOps src ne)).length =
      if ne < src.length then litHdrLen (src.length - ne) + (src.length - ne) else 0 := by
  rw [remainderOps]
  split
  · next hlt =>
    have hd : (src.drop ne).length = src.length - ne := by simp
    refine ⟨⟨by omega, by omega, trivial⟩, ?_, ?_⟩
    · intro pre
      rw [applyOps_cons, applyOps_nil]
      simp only [applyOp]
      rw [List.append_assoc, List.take_append_drop]
    · rw [opsBytes_cons, opsBytes_nil, List.append_nil]
      simp only [opBytes]
      rw [emitLiteral_length (by omega) (by omega), hd]
  · next hge =>
    have he : ne = src.length := by omega
    subst he
    refine ⟨trivial, ?_, rfl⟩
    intro pre
    rw [applyOps_nil, List.take_length]

/-- `emitCopy` output-size ledger: six output bytes cost at most seven
input bytes, with 10 to spare. -/
theorem emitCopy_cost (offset : Nat) {length : Nat} (h4 : 4 ≤ length) :
    6 * (emitCopy offset length).length + 10 ≤ 7 * length := by
  induction length using Nat.strong_induction_on with
  | _ length ih =>
  rw [emitCopy]
  rcases Nat.lt_or_ge length 68 with hlt | hge
  · rw [dif_neg (by omega)]
    split
    · have := emitCopyTail_length offset (length - 60)
      have hlen : (emitCopyTail offset (length - 60)).length ≤ 3 := by
        rw [this]; split <;> omega
      simp only [List.length_cons]
      omega
    · have := emitCopyTail_length offset length
      have hlen : (emitCopyTail offset length).length ≤ 3 := by
        rw [this]; split <;> omega
      omega
  · rw [dif_pos hge]
    have := ih (length - 64) (by omega) (by omega)
    simp only [List.length_cons]
    omega

/-- Main invariant theorem for `encodeBlock`'s loops: from any state
satisfying `PhaseInv`, the emitted ops are well-formed (valid copies),
decode to exactly the remaining input, and obey the `7/6` output-size
ledger; from a search state they start with a non-empty literal. -/
theorem encLoop_spec (src : List Nat) (shift : Nat) (hsrc : BytesP src)
    (h17 : 17 ≤ src.length) (h65536 : src.length ≤ 65536) :
    ∀ ph : Phase, PhaseInv src (src.length - 15) ph →
      OpsWF (phasePos ph) (encLoop src shift (src.length - 15) ph) ∧
      (∀ pre : List Nat,
        applyOps (pre ++ src.take (phasePos ph))
          (encLoop src shift (src.length - 15) ph) = pre ++ src) ∧
      6 * (opsBytes (encLoop src shift (src.length - 15) ph)).length + costSlack ph ≤
        7 * (src.length - phasePos ph) ∧
      headLitP ph (encLoop src shift (src.length - 15) ph) := by
  intro ph
  induction ph using encLoop.induct src shift (src.length - 15) with
  | case1 table ne nh t nS0 s bb nS2 hgt =>
    intro hinv
    simp only [PhaseInv] at hinv
    obtain ⟨htab, hlt, hneL⟩ := hinv
    have hgt' : nS0 + (32 + t) >>> 5 > src.length - 15 := hgt
    rw [encLoop_search_step src shift (src.length - 15) table ne nh t nS0
      ((32 + t) >>> 5) (nS0 + (32 + t) >>> 5) (table (nh &&& tableMask))
      (updTable table (nh &&& tableMask) (u16 nS0)) rfl rfl rfl rfl,
      if_pos hgt']
    simp only [phasePos, costSlack, headLitP]
    obtain ⟨hwf, hdec, hlen⟩ := remainder_spec src (show ne ≤ src.length by omega) h65536
    refine ⟨hwf, hdec, ?_, ?_⟩
    · rw [hlen, if_pos (show ne < src.length by omega)]
      have := litHdrLen_le6 (L := src.length - ne) (by omega)
      omega
    · rw [remainderOps, if_pos (show ne < src.length by omega)]
      refine ⟨src.drop ne, [], rfl, ?_⟩
      simp
      omega
  | case2 table ne nh t nS0 s bb nS2 hle cand tbl2 hm ih =>
    intro hinv
    simp only [PhaseInv] at hinv
    obtain ⟨htab, hlt, hneL⟩ := hinv
    have hs0 : s = nS0 := rfl
    have hle' : ¬ nS0 + (32 + t) >>> 5 > src.length - 15 := hle
    have hm' : load32 src nS0 = load32 src cand := hm
    have hcandval : cand = table (nh &&& tableMask) := rfl
    have hb1 : 1 ≤ (32 + t) >>> 5 := by
      have h32 : (32 + t) >>> 5 = (32 + t) / 32 := by
        simp [Nat.shiftRight_eq_div_pow]
      omega
    have hcand : cand < nS0 := by rw [hcandval]; exact htab _
    have hcur : nS0 < src.length - 15 := by omega
    have hinvC : PhaseInv src (src.length - 15) (.copy tbl2 nS0 cand) := by
      simp only [PhaseInv]
      refine ⟨?_, hcand, hcur, hm'⟩
      intro j
      have hj : tbl2 j = updTable table (nh &&& tableMask) (u16 nS0) j := rfl
      rw [hj, updTable]
      split
      · exact Nat.mod_le _ _
      · exact Nat.le_of_lt (htab j)
    obtain ⟨ihWF, ihDec, ihCost, -⟩ := ih hinvC
    rw [hs0] at ihWF ihDec ihCost
    simp only [phasePos, costSlack] at ihWF ihDec ihCost
    rw [encLoop_search_step src shift (src.length - 15) table ne nh t nS0
      ((32 + t) >>> 5) (nS0 + (32 + t) >>> 5) cand tbl2 rfl rfl hcandval rfl,
      if_neg hle', if_pos hm']
    simp only [phasePos, costSlack, headLitP]
    have hslice : ((src.drop ne).take (nS0 - ne)).length = nS0 - ne := by
      simp
      omega
    have htake : ∀ pre : List Nat,
        (pre ++ src.take ne) ++ (src.drop ne).take (nS0 - ne) = pre ++ src.take nS0 := by
      intro pre
      rw [List.append_assoc]
      congr 1
      calc src.take ne ++ (src.drop ne).take (nS0 - ne)
          = src.take (ne + (nS0 - ne)) := (List.take_add src ne (nS0 - ne)).symm
        _ = src.take nS0 := by rw [show ne + (nS0 - ne) = nS0 from by omega]
    refine ⟨?_, ?_, ?_, ?_⟩
    · rw [OpsWF_lit_iff]
      refine ⟨by omega, by omega, ?_⟩
      have e : ne + ((src.drop ne).take (nS0 - ne)).length = nS0 := by
        rw [hslice]; omega
      rw [e]
      exact ihWF
    · intro pre
      rw [applyOps_cons]
      simp only [applyOp]
      rw [htake pre]
      exact ihDec pre
    · rw [opsBytes_cons, List.length_append]
      simp only [opBytes]
      rw [emitLiteral_length (by omega) (by omega), hslice]
      have hhdr := litHdrLen_le (L := nS0 - ne) (by omega)
      omega
    · exact ⟨(src.drop ne).take (nS0 - ne), _, rfl, by omega⟩
  | case3 table ne nh t nS0 s bb nS2 t2 hle cand tbl2 nh2 hm ih =>
    intro hinv
    simp only [PhaseInv] at hinv
    obtain ⟨htab, hlt, hneL⟩ := hinv
    have hle' : ¬ nS0 + (32 + t) >>> 5 > src.length - 15 := hle
    have hm' : ¬ load32 src nS0 = load32 src cand := hm
    have hcandval : cand = table (nh &&& tableMask) := rfl
    have hnS2 : nS2 = nS0 + (32 + t) >>> 5 := rfl
    have hb1 : 1 ≤ (32 + t) >>> 5 := by
      have h32 : (32 + t) >>> 5 = (32 + t) / 32 := by
        simp [Nat.shiftRight_eq_div_pow]
      omega
    have hinvS : PhaseInv src (src.length - 15) (.search tbl2 ne nh2 t2 nS2) := by
      simp only [PhaseInv]
      refine ⟨?_, by omega, hneL⟩
      intro j
      have hj : tbl2 j = updTable table (nh &&& tableMask) (u16 nS0) j := rfl
      rw [hj, updTable]
      split
      · have : u16 nS0 ≤ nS0 := Nat.mod_le _ _
        omega
      · have := htab j
        omega
    have hconc := ih hinvS
    rw [encLoop_search_step src shift (src.length - 15) table ne nh t nS0
      ((32 + t) >>> 5) nS2 cand tbl2 rfl hnS2 hcandval rfl,
      if_neg (by omega : ¬ nS2 > src.length - 15), if_neg hm']
    simp only [phasePos, costSlack, headLitP] at hconc ⊢
    exact hconc
  | case4 table cursor candidate E ih1 ih2 =>
    intro hinv
    simp only [PhaseInv] at hinv
    obtain ⟨htab, hcand, hcur, hm⟩ := hinv
    have hEdef : E = extendMatch src (candidate + 4) (cursor + 4) := rfl
    have hs4 : cursor + 4 ≤ E := le_extendMatch src (candidate + 4) (cursor + 4)
    have hsm : E ≤ src.length :=
      extendMatch_le_length src (candidate + 4) (cursor + 4) (by omega)
    have hcursor1 : 1 ≤ cursor := by omega
    have hbytes : ∀ k, k < E - cursor →
        src.getD (candidate + k) 0 = src.getD (cursor + k) 0 := by
      intro k hk
      rcases Nat.lt_or_ge k 4 with hk4 | hk4
      · exact load32_inj hsrc hm.symm k hk4
      · have h5 := extendMatch_spec src (candidate + 4) (cursor + 4) (k - 4) (by omega)
        rw [show candidate + 4 + (k - 4) = candidate + k from by omega,
          show cursor + 4 + (k - 4) = cursor + k from by omega] at h5
        exact h5
    have hdec1 : ∀ pre : List Nat,
        applyOp (pre ++ src.take cursor) (.cop (cursor - candidate) (E - cursor)) =
          pre ++ src.take E := by
      intro pre
      simp only [applyOp]
      have hmt : ∀ k, k < E - cursor →
          src.getD (cursor - (cursor - candidate) + k) 0 = src.getD (cursor + k) 0 := by
        intro k hk
        rw [show cursor - (cursor - candidate) = candidate from by omega]
        exact hbytes k hk
      have hcf := copyFrom_spec src (E - cursor) cursor (cursor - candidate) pre
        (by omega) (by omega) (by omega) hmt
      rwa [show cursor + (E - cursor) = E from by omega] at hcf
    have hcost6 := emitCopy_cost (cursor - candidate) (show 4 ≤ E - cursor by omega)
    have assemble : ∀ rest : List Op,
        OpsWF E rest →
        (∀ pre : List Nat, applyOps (pre ++ src.take E) rest = pre ++ src) →
        6 * (opsBytes rest).length ≤ 7 * (src.length - E) + 5 →
        OpsWF cursor (.cop (cursor - candidate) (E - cursor) :: rest) ∧
        (∀ pre : List Nat,
          applyOps (pre ++ src.take cursor)
            (.cop (cursor - candidate) (E - cursor) :: rest) = pre ++ src) ∧
        6 * (opsBytes (.cop (cursor - candidate) (E - cursor) :: rest)).length + 5 ≤
          7 * (src.length - cursor) := by
      intro rest hWF hDec hCost
      refine ⟨?_, ?_, ?_⟩
      · rw [OpsWF_cop_iff]
        refine ⟨by omega, by omega, by omega, by omega, by omega, ?_⟩
        rw [show cursor + (E - cursor) = E from by omega]
        exact hWF
      · intro pre
        rw [applyOps_cons, hdec1 pre]
        exact hDec pre
      · rw [opsBytes_cons, List.length_append]
        simp only [opBytes]
        omega
    rw [encLoop_copy_step src shift (src.length - 15) table cursor candidate
      E (load64 src (E - 1)) _ _ _ hEdef rfl rfl rfl rfl]
    simp only [phasePos, costSlack, headLitP]
    rcases Nat.lt_or_ge E (src.length - 15) with hfin | hfin
    · -- the copy loop continues: chain to another copy or break to search
      rw [if_neg (by omega)]
      have hE1 : E - 1 + 1 = E := by omega
      have hload : u32 (load64 src (E - 1) >>> 8) = load32 src E := by
        rw [u32_load64_shift8 hsrc, hE1]
      have htab1 : ∀ j,
          updTable table (hash (u32 (load64 src (E - 1))) shift &&& tableMask)
            (u16 (E - 1)) j ≤ E - 1 := by
        intro j
        rw [updTable]
        split
        · exact Nat.mod_le _ _
        · have := htab j
          omega
      by_cases hchain : u32 (load64 src (E - 1) >>> 8) =
          load32 src (updTable table
            (hash (u32 (load64 src (E - 1))) shift &&& tableMask) (u16 (E - 1))
            (hash (u32 (load64 src (E - 1) >>> 8)) shift &&& tableMask))
      · rw [if_pos hchain]
        have hinvC : PhaseInv src (src.length - 15)
            (.copy (updTable (updTable table
                (hash (u32 (load64 src (E - 1))) shift &&& tableMask) (u16 (E - 1)))
                (hash (u32 (load64 src (E - 1) >>> 8)) shift &&& tableMask) (u16 E)) E
              (updTable table
                (hash (u32 (load64 src (E - 1))) shift &&& tableMask) (u16 (E - 1))
                (hash (u32 (load64 src (E - 1) >>> 8)) shift &&& tableMask))) := by
          simp only [PhaseInv]
          refine ⟨?_, ?_, hfin, ?_⟩
          · intro j
            rw [updTable]
            split
            · exact Nat.mod_le _ _
            · have := htab1 j
              omega
          · have := htab1 (hash (u32 (load64 src (E - 1) >>> 8)) shift &&& tableMask)
            omega
          · exact hload.symm.trans hchain
        obtain ⟨ihWF, ihDec, ihCost, -⟩ := ih1 (by omega) hinvC
        simp only [phasePos, costSlack] at ihWF ihDec ihCost
        obtain ⟨g1, g2, g3⟩ := assemble _ ihWF ihDec (by omega)
        exact ⟨g1, g2, g3, trivial⟩
      · rw [if_neg hchain]
        have hinvS : PhaseInv src (src.length - 15)
            (.search (updTable (updTable table
                (hash (u32 (load64 src (E - 1))) shift &&& tableMask) (u16 (E - 1)))
                (hash (u32 (load64 src (E - 1) >>> 8)) shift &&& tableMask) (u16 E)) E
              (hash (u32 (load64 src (E - 1) >>> 16)) shift) 0 (E + 1)) := by
          simp only [PhaseInv]
          refine ⟨?_, by omega, by omega⟩
          intro j
          rw [updTable]
          split
          · have : u16 E ≤ E := Nat.mod_le _ _
            omega
          · have := htab1 j
            omega
        obtain ⟨ihWF, ihDec, ihCost, -⟩ := ih2 (by omega) hinvS
        simp only [phasePos, costSlack] at ihWF ihDec ihCost
        obtain ⟨g1, g2, g3⟩ := assemble _ ihWF ihDec (by omega)
        exact ⟨g1, g2, g3, trivial⟩
    · -- the copy reached sLimit: emit the remaining bytes as one literal
      rw [if_pos (by omega)]
      obtain ⟨hwf, hdec, hlen⟩ := remainder_spec src (show E ≤ src.length by omega) h65536
      have hcost : 6 * (opsBytes (remainderOps src E)).length ≤
          7 * (src.length - E) + 5 := by
        rw [hlen]
        split
        · next hElt =>
          have := litHdrLen_le (L := src.length - E) (by omega)
          omega
        · omega
      obtain ⟨g1, g2, g3⟩ := assemble _ hwf hdec hcost
      exact ⟨g1, g2, g3, trivial⟩

theorem bytesP_take (l : List Nat) (n : Nat) (h : BytesP l) : BytesP (l.take n) :=
  fun b hb => h b (List.mem_of_mem_take hb)

theorem bytesP_drop (l : List Nat) (n : Nat) (h : BytesP l) : BytesP (l.drop n) :=
  fun b hb => h b (List.mem_of_mem_drop hb)

/-- `encodeBlock` correctness: well-formed ops, exact decode, and the
`7/6` size ledger. -/
theorem encodeBlockOps_spec (src : List Nat) (hsrc : BytesP src)
    (h17 : 17 ≤ src.length) (h65536 : src.length ≤ 65536) :
    OpsWF 0 (encodeBlockOps src) ∧
    (∀ pre : List Nat, applyOps pre (encodeBlockOps src) = pre ++ src) ∧
    6 * (opsBytes (encodeBlockOps src)).length ≤ 7 * src.length ∧
    (∃ l rest, encodeBlockOps src = .lit l :: rest ∧ 1 ≤ l.length) := by
  have hinv : PhaseInv src (src.length - 15)
      (.search (fun _ => 0) 0 (hash (load32 src 1) (shiftFor src.length)) 0 1) := by
    simp only [PhaseInv]
    exact ⟨fun j => by omega, by omega, by omega⟩
  obtain ⟨hWF, hDec, hCost, hHead⟩ :=
    encLoop_spec src (shiftFor src.length) hsrc h17 h65536 _ hinv
  simp only [phasePos, costSlack, headLitP] at hWF hDec hCost hHead
  rw [encodeBlockOps, show src.length - inputMargin = src.length - 15 from rfl]
  refine ⟨hWF, ?_, by omega, hHead⟩
  intro pre
  have := hDec pre
  simpa using this

/-- One driver block: well-formed ops, exact decode, and both forms of the
size bound (the tight one for blocks long enough to go through
`encodeBlock`). -/
theorem blockOps_spec (p : List Nat) (hsrc : BytesP p)
    (h1 : 1 ≤ p.length) (h65536 : p.length ≤ 65536) :
    OpsWF 0 (blockOps p) ∧
    (∀ pre : List Nat, applyOps pre (blockOps p) = pre ++ p) ∧
    (opsBytes (blockOps p)).length ≤ p.length + p.length / 6 + 1 ∧
    (17 ≤ p.length → (opsBytes (blockOps p)).length ≤ p.length + p.length / 6) := by
  rw [blockOps]
  split
  · next hshort =>
    have hlt : p.length < 17 := by
      have : minNonLiteralBlockSize = 17 := by decide
      omega
    refine ⟨⟨by omega, by omega, trivial⟩, ?_, ?_, by omega⟩
    · intro pre
      rw [applyOps_cons, applyOps_nil]
      rfl
    · rw [opsBytes_cons, opsBytes_nil, List.append_nil]
      simp only [opBytes]
      rw [emitLiteral_length (by omega) (by omega)]
      have h60 : litHdrLen p.length = 1 := by
        rw [litHdrLen, if_pos (by omega)]
      omega
  · next hlong =>
    have h17 : 17 ≤ p.length := by
      have : minNonLiteralBlockSize = 17 := by decide
      omega
    obtain ⟨hWF, hDec, hCost, -⟩ := encodeBlockOps_spec p hsrc h17 h65536
    exact ⟨hWF, hDec, by omega, fun _ => by omega⟩

/-- Whole-input driver correctness: decoding the emitted ops reproduces
`src`, and the output size obeys `n + n/6 + 1`. -/
theorem encodeOps_spec (src : List Nat) (hsrc : BytesP src) :
    OpsWF 0 (encodeOps src) ∧
    (∀ pre : List Nat, applyOps pre (encodeOps src) = pre ++ src) ∧
    (opsBytes (encodeOps src)).length ≤ src.length + src.length / 6 + 1 := by
  induction src using encodeOps.induct with
  | case1 src hzero =>
    have he : src = [] := List.length_eq_zero.mp hzero
    subst he
    rw [encodeOps]
    refine ⟨trivial, ?_, by simp [opsBytes]⟩
    intro pre
    simp [applyOps]
  | case2 src hzero hle =>
    rw [encodeOps, if_neg hzero, if_pos hle]
    have hmax : src.length ≤ 65536 := by
      have : maxBlockSize = 65536 := by decide
      omega
    obtain ⟨hWF, hDec, hB, -⟩ := blockOps_spec src hsrc (by omega) hmax
    exact ⟨hWF, hDec, by omega⟩
  | case3 src hzero hgt ih =>
    rw [encodeOps, if_neg hzero, if_neg hgt]
    have h655 : maxBlockSize = 65536 := by decide
    have hlen : (src.take maxBlockSize).length = 65536 := by
      simp
      omega
    obtain ⟨hWF1, hDec1, -, hB1⟩ := blockOps_spec (src.take maxBlockSize)
      (bytesP_take src maxBlockSize hsrc) (by omega) (by omega)
    obtain ⟨hWF2, hDec2, hB2⟩ := ih (bytesP_drop src maxBlockSize hsrc)
    have hops1 : opsLen (blockOps (src.take maxBlockSize)) = 65536 := by
      have h0 := hDec1 []
      have h1 := applyOps_length (blockOps (src.take maxBlockSize)) []
      rw [h0] at h1
      simp at h1
      omega
    refine ⟨?_, ?_, ?_⟩
    · refine OpsWF_append _ _ 0 hWF1 ?_
      rw [hops1]
      exact OpsWF_mono _ 0 _ hWF2 (by omega)
    · intro pre
      rw [applyOps_append, hDec1 pre, hDec2 (pre ++ src.take maxBlockSize),
        List.append_assoc, List.take_append_drop]
    · rw [show opsBytes (blockOps (src.take maxBlockSize) ++ encodeOps (src.drop maxBlockSize)) =
        opsBytes (blockOps (src.take maxBlockSize)) ++ opsBytes (encodeOps (src.drop maxBlockSize))
        from by simp [opsBytes], List.length_append]
      have hb1 := hB1 (by omega)
      have hd : (src.drop maxBlockSize).length = src.length - 65536 := by
        simp
        omega
      rw [hlen] at hb1
      rw [hd] at hB2
      omega

/-! ### A byte-level reference decoder -/

/-- Modelled from the spec: a conforming reference decoder for the tagged
chunk stream of a block body (the decoder itself is out of scope of the
sources; the chunk formats are fixed by the data model: literal chunks
with inline or 1-4 extra little-endian length bytes, 2-byte `COPY_1`,
3-byte `COPY_2`, 5-byte `COPY_4`).  Maintains the decoded output `out`
and fails on a truncated chunk or an invalid copy offset. -/
def decodeChunks (out : List Nat) (l : List Nat) : Option (List Nat) :=
  match l with
  | [] => some out
  | b :: rest =>
    if b % 4 = 0 then
      if b / 4 < 60 then
        if rest.length < b / 4 + 1 then none
        else decodeChunks (out ++ rest.take (b / 4 + 1)) (rest.drop (b / 4 + 1))
      else if b / 4 = 60 then
        if rest.length < 1 then none
        else
          let n := rest.getD 0 0
          if (rest.drop 1).length < n + 1 then none
          else decodeChunks (out ++ (rest.drop 1).take (n + 1)) ((rest.drop 1).drop (n + 1))
      else if b / 4 = 61 then
        if rest.length < 2 then none
        else
          let n := rest.getD 0 0 + rest.getD 1 0 * 256
          if (rest.drop 2).length < n + 1 then none
          else decodeChunks (out ++ (rest.drop 2).take (n + 1)) ((rest.drop 2).drop (n + 1))
      else if b / 4 = 62 then
        if rest.length < 3 then none
        else
          let n := rest.getD 0 0 + rest.getD 1 0 * 256 + rest.getD 2 0 * 65536
          if (rest.drop 3).length < n + 1 then none
          else decodeChunks (out ++ (rest.drop 3).take (n + 1)) ((rest.drop 3).drop (n + 1))
      else
        if rest.length < 4 then none
        else
          let n := rest.getD 0 0 + rest.getD 1 0 * 256 + rest.getD 2 0 * 65536 +
            rest.getD 3 0 * 16777216
          if (rest.drop 4).length < n + 1 then none
          else decodeChunks (out ++ (rest.drop 4).take (n + 1)) ((rest.drop 4).drop (n + 1))
    else if b % 4 = 1 then
      if rest.length < 1 then none
      else
        let off := b >>> 5 * 256 + rest.getD 0 0
        if off = 0 ∨ out.length < off then none
        else decodeChunks (copyFrom out off (b >>> 2 % 8 + 4)) (rest.drop 1)
    else if b % 4 = 2 then
      if rest.length < 2 then none
      else
        let off := rest.getD 0 0 + rest.getD 1 0 * 256
        if off = 0 ∨ out.length < off then none
        else decodeChunks (copyFrom out off (b >>> 2 + 1)) (rest.drop 2)
    else
      if rest.length < 4 then none
      else
        let off := rest.getD 0 0 + rest.getD 1 0 * 256 + rest.getD 2 0 * 65536 +
          rest.getD 3 0 * 16777216
        if off = 0 ∨ out.length < off then none
        else decodeChunks (copyFrom out off (b >>> 2 + 1)) (rest.drop 4)
termination_by l.length
decreasing_by
  all_goals simp only [List.length_drop, List.length_cons]
  all_goals omega

/-- Parsing an emitted literal chunk appends the literal bytes. -/
theorem decodeChunks_emitLiteral (out tail : List Nat) (lit : List Nat)
    (h1 : 1 ≤ lit.length) (h2 : lit.length ≤ 65536) :
    decodeChunks out (emitLiteral lit ++ tail) = decodeChunks (out ++ lit) tail := by
  have hlit : (lit ++ tail).take lit.length = lit := List.take_left lit tail
  have hlitd : (lit ++ tail).drop lit.length = tail := List.drop_left lit tail
  rw [emitLiteral_eq h1 h2]
  split
  · next hle =>
    simp only [List.cons_append, List.nil_append]
    rw [decodeChunks,
      if_pos (show (lit.length - 1) * 4 % 4 = 0 from by omega),
      show (lit.length - 1) * 4 / 4 = lit.length - 1 from by omega,
      if_pos (show lit.length - 1 < 60 from by omega),
      if_neg (show ¬ (lit ++ tail).length < lit.length - 1 + 1 from by simp only [List.length_append]; omega),
      show lit.length - 1 + 1 = lit.length from by omega, hlit, hlitd]
  · split
    · next h60 h256 =>
      simp only [List.cons_append, List.nil_append]
      rw [decodeChunks, if_pos (by decide : (240:Nat) % 4 = 0),
        if_neg (by decide : ¬ (240:Nat) / 4 < 60),
        if_pos (by decide : (240:Nat) / 4 = 60),
        if_neg (by simp : ¬ ((lit.length - 1) :: (lit ++ tail)).length < 1)]
      rw [show ((lit.length - 1) :: (lit ++ tail)).getD 0 0 = lit.length - 1 from rfl,
        show ((lit.length - 1) :: (lit ++ tail)).drop 1 = lit ++ tail from rfl]
      dsimp only
      rw [if_neg (show ¬ (lit ++ tail).length < lit.length - 1 + 1 from by simp only [List.length_append]; omega),
        show lit.length - 1 + 1 = lit.length from by omega, hlit, hlitd]
    · next h60 h256 =>
      simp only [List.cons_append, List.nil_append]
      rw [decodeChunks, if_pos (by decide : (244:Nat) % 4 = 0),
        if_neg (by decide : ¬ (244:Nat) / 4 < 60),
        if_neg (by decide : ¬ (244:Nat) / 4 = 60),
        if_pos (by decide : (244:Nat) / 4 = 61),
        if_neg (by simp : ¬ ((lit.length - 1) % 256 :: (lit.length - 1) / 256 ::
          (lit ++ tail)).length < 2)]
      rw [show ((lit.length - 1) % 256 :: (lit.length - 1) / 256 :: (lit ++ tail)).getD 0 0 =
          (lit.length - 1) % 256 from rfl,
        show ((lit.length - 1) % 256 :: (lit.length - 1) / 256 :: (lit ++ tail)).getD 1 0 =
          (lit.length - 1) / 256 from rfl,
        show ((lit.length - 1) % 256 :: (lit.length - 1) / 256 :: (lit ++ tail)).drop 2 =
          lit ++ tail from rfl]
      dsimp only
      rw [show (lit.length - 1) % 256 + (lit.length - 1) / 256 * 256 + 1 = lit.length
          from by omega,
        if_neg (show ¬ (lit ++ tail).length < lit.length from by simp only [List.length_append]; omega),
        hlit, hlitd]

/-- Parsing the final chunk of `emitCopy` performs the copy. -/
theorem decodeChunks_emitCopyTail (out tail : List Nat) (off len : Nat)
    (ho1 : 1 ≤ off) (ho2 : off ≤ 65535) (h4 : 4 ≤ len) (h64 : len ≤ 64)
    (hout : off ≤ out.length) :
    decodeChunks out (emitCopyTail off len ++ tail) =
      decodeChunks (copyFrom out off len) tail := by
  rw [emitCopyTail_eq ho1 ho2 h4 h64]
  split
  · next hc =>
    simp only [List.cons_append, List.nil_append]
    rw [decodeChunks,
      if_neg (show ¬ ((len - 1) * 4 + 2) % 4 = 0 from by omega),
      if_neg (show ¬ ((len - 1) * 4 + 2) % 4 = 1 from by omega),
      if_pos (show ((len - 1) * 4 + 2) % 4 = 2 from by omega),
      if_neg (by simp : ¬ (off % 256 :: off / 256 :: tail).length < 2)]
    rw [show (off % 256 :: off / 256 :: tail).getD 0 0 = off % 256 from rfl,
      show (off % 256 :: off / 256 :: tail).getD 1 0 = off / 256 from rfl,
      show (off % 256 :: off / 256 :: tail).drop 2 = tail from rfl]
    dsimp only
    rw [show off % 256 + off / 256 * 256 = off from by omega,
      if_neg (show ¬ (off = 0 ∨ out.length < off) from by omega)]
    have hsr : ((len - 1) * 4 + 2) >>> 2 = ((len - 1) * 4 + 2) / 4 := by
      simp [Nat.shiftRight_eq_div_pow]
    rw [show ((len - 1) * 4 + 2) >>> 2 + 1 = len from by omega]
  · next hc =>
    push_neg at hc
    simp only [List.cons_append, List.nil_append]
    rw [decodeChunks,
      if_neg (show ¬ (off / 256 * 32 + (len - 4) * 4 + 1) % 4 = 0 from by omega),
      if_pos (show (off / 256 * 32 + (len - 4) * 4 + 1) % 4 = 1 from by omega),
      if_neg (by simp : ¬ (off % 256 :: tail).length < 1)]
    rw [show (off % 256 :: tail).getD 0 0 = off % 256 from rfl,
      show (off % 256 :: tail).drop 1 = tail from rfl]
    dsimp only
    have hsr5 : (off / 256 * 32 + (len - 4) * 4 + 1) >>> 5 =
        (off / 256 * 32 + (len - 4) * 4 + 1) / 32 := by
      simp [Nat.shiftRight_eq_div_pow]
    have hdiv : (off / 256 * 32 + (len - 4) * 4 + 1) / 32 = off / 256 := by
      have hlo : off / 256 < 8 := by omega
      omega
    rw [hsr5, hdiv, show off / 256 * 256 + off % 256 = off from by omega,
      if_neg (show ¬ (off = 0 ∨ out.length < off) from by omega)]
    have hsr2 : (off / 256 * 32 + (len - 4) * 4 + 1) >>> 2 =
        (off / 256 * 32 + (len - 4) * 4 + 1) / 4 := by
      simp [Nat.shiftRight_eq_div_pow]
    have hmod : (off / 256 * 32 + (len - 4) * 4 + 1) / 4 % 8 = len - 4 := by
      have e : (off / 256 * 32 + (len - 4) * 4 + 1) / 4 = off / 256 * 8 + (len - 4) := by
        omega
      rw [e]
      omega
    rw [hsr2, hmod, show len - 4 + 4 = len from by omega]

/-- Parsing all chunks emitted by `emitCopy` performs the whole copy. -/
theorem decodeChunks_emitCopy (tail : List Nat) (off : Nat)
    (ho1 : 1 ≤ off) (ho2 : off ≤ 65535) :
    ∀ (len : Nat) (out : List Nat), 4 ≤ len → len ≤ 65535 → off ≤ out.length →
    decodeChunks out (emitCopy off len ++ tail) =
      decodeChunks (copyFrom out off len) tail := by
  intro len
  induction len using Nat.strong_induction_on with
  | _ len ih =>
  intro out h4 h65535 hout
  have hsh : u8 (off >>> 8) = off / 256 := by
    rw [u8, Nat.shiftRight_eq_div_pow]
    exact Nat.mod_eq_of_lt (by omega)
  rw [emitCopy]
  rcases Nat.lt_or_ge len 68 with hlt | hge
  · rw [dif_neg (by omega)]
    split
    · next hgt =>
      simp only [List.cons_append]
      rw [show (59 <<< 2 ||| tagCopy2 : Nat) = 238 from by decide, u8, hsh]
      rw [decodeChunks, if_neg (by decide : ¬ (238:Nat) % 4 = 0),
        if_neg (by decide : ¬ (238:Nat) % 4 = 1),
        if_pos (by decide : (238:Nat) % 4 = 2),
        if_neg (by simp : ¬ (off % 256 :: off / 256 ::
          (emitCopyTail off (len - 60) ++ tail)).length < 2)]
      rw [show (off % 256 :: off / 256 :: (emitCopyTail off (len - 60) ++ tail)).getD 0 0 =
          off % 256 from rfl,
        show (off % 256 :: off / 256 :: (emitCopyTail off (len - 60) ++ tail)).getD 1 0 =
          off / 256 from rfl,
        show (off % 256 :: off / 256 :: (emitCopyTail off (len - 60) ++ tail)).drop 2 =
          emitCopyTail off (len - 60) ++ tail from rfl]
      dsimp only
      rw [show off % 256 + off / 256 * 256 = off from by omega,
        if_neg (show ¬ (off = 0 ∨ out.length < off) from by omega),
        show (238:Nat) >>> 2 + 1 = 60 from by decide,
        decodeChunks_emitCopyTail _ tail off (len - 60) ho1 ho2 (by omega) (by omega)
          (by rw [copyFrom_length]; omega),
        ← copyFrom_add, show 60 + (len - 60) = len from by omega]
    · next hle2 =>
      exact decodeChunks_emitCopyTail out tail off len ho1 ho2 h4 (by omega) hout
  · rw [dif_pos hge]
    simp only [List.cons_append]
    rw [show (63 <<< 2 ||| tagCopy2 : Nat) = 254 from by decide, u8, hsh]
    rw [decodeChunks, if_neg (by decide : ¬ (254:Nat) % 4 = 0),
      if_neg (by decide : ¬ (254:Nat) % 4 = 1),
      if_pos (by decide : (254:Nat) % 4 = 2),
      if_neg (by simp : ¬ (off % 256 :: off / 256 ::
        (emitCopy off (len - 64) ++ tail)).length < 2)]
    rw [show (off % 256 :: off / 256 :: (emitCopy off (len - 64) ++ tail)).getD 0 0 =
        off % 256 from rfl,
      show (off % 256 :: off / 256 :: (emitCopy off (len - 64) ++ tail)).getD 1 0 =
        off / 256 from rfl,
      show (off % 256 :: off / 256 :: (emitCopy off (len - 64) ++ tail)).drop 2 =
        emitCopy off (len - 64) ++ tail from rfl]
    dsimp only
    rw [show off % 256 + off / 256 * 256 = off from by omega,
      if_neg (show ¬ (off = 0 ∨ out.length < off) from by omega),
      show (254:Nat) >>> 2 + 1 = 64 from by decide,
      ih (len - 64) (by omega) _ (by omega) (by omega)
        (by rw [copyFrom_length]; omega),
      ← copyFrom_add, show 64 + (len - 64) = len from by omega]

/-- A well-formed op sequence serializes to bytes that the reference
decoder parses back into exactly the ops' effect. -/
theorem decodeChunks_opsBytes : ∀ (ops : List Op) (out tail : List Nat),
    OpsWF out.length ops →
    decodeChunks out (opsBytes ops ++ tail) = decodeChunks (applyOps out ops) tail := by
  intro ops
  induction ops with
  | nil =>
    intro out tail _
    rw [opsBytes_nil, List.nil_append, applyOps_nil]
  | cons op rest ih =>
    intro out tail hWF
    rw [opsBytes_cons, List.append_assoc]
    cases op with
    | lit l =>
      obtain ⟨ha, hb, hc⟩ := hWF
      simp only [opBytes]
      rw [decodeChunks_emitLiteral out _ l ha hb, applyOps_cons]
      have hres := ih (out ++ l) tail (by rw [List.length_append]; exact hc)
      simpa only [applyOp] using hres
    | cop o n =>
      obtain ⟨h1, h2, h3, h4, h5, h6⟩ := hWF
      simp only [opBytes]
      rw [decodeChunks_emitCopy _ o h1 h2 n out h3 h4 h5, applyOps_cons]
      have hres := ih (copyFrom out o n) tail (by rw [copyFrom_length]; exact h6)
      simpa only [applyOp] using hres

/-! ### A bounds-checked variant of the matcher (for the safety claim) -/

/-- Bounds-checked match extension: fails if the backward pointer `i`
would be read out of bounds (the loop guard already checks `s`). -/
def extendMatchC (src : List Nat) (i s : Nat) : Option Nat :=
  if _h : s < src.length then
    if i < src.length then
      if src.getD i 0 = src.getD s 0 then extendMatchC src (i + 1) (s + 1) else some s
    else none
  else some s
termination_by src.length - s

theorem extendMatchC_ge {src : List Nat} {i s s' : Nat}
    (h : extendMatchC src i s = some s') : s ≤ s' := by
  induction i, s using extendMatchC.induct src with
  | case1 i s hs hi heq ih =>
    rw [extendMatchC, dif_pos hs, if_pos hi, if_pos heq] at h
    have := ih h
    omega
  | case2 i s hs hi hne =>
    rw [extendMatchC, dif_pos hs, if_pos hi, if_neg hne] at h
    simp at h
    omega
  | case3 i s hs hi =>
    rw [extendMatchC, dif_pos hs, if_neg hi] at h
    simp at h
  | case4 i s hs =>
    rw [extendMatchC, dif_neg hs] at h
    simp at h
    omega

/-- The checked extension agrees with `extendMatch` whenever the
backward pointer trails the cursor. -/
theorem extendMatchC_eq (src : List Nat) : ∀ i s : Nat, i < s →
    extendMatchC src i s = some (extendMatch src i s) := by
  intro i s
  induction i, s using extendMatchC.induct src with
  | case1 i s hs hi heq ih =>
    intro hlt
    rw [extendMatchC, dif_pos hs, if_pos hi, if_pos heq, extendMatch,
      dif_pos ⟨hs, heq⟩]
    exact ih (by omega)
  | case2 i s hs hi hne =>
    intro hlt
    rw [extendMatchC, dif_pos hs, if_pos hi, if_neg hne, extendMatch,
      dif_neg (by tauto)]
  | case3 i s hs hi =>
    intro hlt
    omega
  | case4 i s hs =>
    intro hlt
    rw [extendMatchC, dif_neg hs, extendMatch, dif_neg (by tauto)]

/-- Bounds-checked variant of `encLoop`: every `src` load is guarded by
its bounds, every hash-table access by the index range, and every stored
cursor by the `uint16` value range; `none` signals a violated check.
`encLoopC_eq` shows the checks always pass under the loop invariant. -/
def encLoopC (src : List Nat) (shift sLimit : Nat) : Phase → Option (List Op)
  | .search table nextEmit nextHash t nextS₀ =>
    let bytesBetweenHashLookups := (32 + t) >>> 5
    let nextS := nextS₀ + bytesBetweenHashLookups
    if _h : nextS > sLimit then some (remainderOps src nextEmit)
    else
      if nextHash &&& tableMask < 16384 ∧ nextS₀ < 65536 ∧
          nextS + 4 ≤ src.length ∧ nextS₀ + 4 ≤ src.length ∧
          table (nextHash &&& tableMask) + 4 ≤ src.length then
        let candidate := table (nextHash &&& tableMask)
        let table' := updTable table (nextHash &&& tableMask) (u16 nextS₀)
        if load32 src nextS₀ = load32 src candidate then
          (encLoopC src shift sLimit (.copy table' nextS₀ candidate)).map
            (fun ops => .lit ((src.drop nextEmit).take (nextS₀ - nextEmit)) :: ops)
        else
          encLoopC src shift sLimit
            (.search table' nextEmit (hash (load32 src nextS) shift)
              (t + bytesBetweenHashLookups) nextS)
      else none
  | .copy table cursor candidate =>
    let s := extendMatch src (candidate + 4) (cursor + 4)
    if extendMatchC src (candidate + 4) (cursor + 4) ≠ some s then none
    else
      if _h2 : s ≥ sLimit then
        some (.cop (cursor - candidate) (s - cursor) :: remainderOps src s)
      else
        if s - 1 + 8 ≤ src.length ∧ s - 1 < 65536 ∧ s < 65536 ∧
            hash (u32 (load64 src (s - 1))) shift &&& tableMask < 16384 ∧
            hash (u32 (load64 src (s - 1) >>> 8)) shift &&& tableMask < 16384 ∧
            updTable table (hash (u32 (load64 src (s - 1))) shift &&& tableMask)
              (u16 (s - 1)) (hash (u32 (load64 src (s - 1) >>> 8)) shift &&& tableMask) +
              4 ≤ src.length then
          let x := load64 src (s - 1)
          let table1 := updTable table (hash (u32 x) shift &&& tableMask) (u16 (s - 1))
          let cand2 := table1 (hash (u32 (x >>> 8)) shift &&& tableMask)
          let table2 := updTable table1 (hash (u32 (x >>> 8)) shift &&& tableMask) (u16 s)
          if u32 (x >>> 8) = load32 src cand2 then
            (encLoopC src shift sLimit (.copy table2 s cand2)).map
              (fun ops => .cop (cursor - candidate) (s - cursor) :: ops)
          else
            (encLoopC src shift sLimit
              (.search table2 s (hash (u32 (x >>> 16)) shift) 0 (s + 1))).map
              (fun ops => .cop (cursor - candidate) (s - cursor) :: ops)
        else none
termination_by ph =>
  match ph with
  | .search _ _ _ _ nextS => 2 * (sLimit + 1 - nextS) + 1
  | .copy _ cursor _ => 2 * (sLimit + 1 - cursor)
decreasing_by
  · omega
  · have hb : (32 + t) >>> 5 = (32 + t) / 32 := by
      simp [Nat.shiftRight_eq_div_pow]
    omega
  · have h4 := le_extendMatch src (candidate + 4) (cursor + 4)
    omega
  · have h4 := le_extendMatch src (candidate + 4) (cursor + 4)
    omega

/-- The bounds checks of `encLoopC` always pass: under the loop
invariant the checked and unchecked matchers agree, so every `load32`
and `load64` of `encodeBlock` is in bounds, every table index is below
16384 and every stored cursor fits a `uint16`. -/
theorem encLoopC_eq (src : List Nat) (shift : Nat) (hsrc : BytesP src)
    (h17 : 17 ≤ src.length) (h65536 : src.length ≤ 65536) :
    ∀ ph, PhaseInv src (src.length - 15) ph →
      encLoopC src shift (src.length - 15) ph =
        some (encLoop src shift (src.length - 15) ph) := by
  intro ph
  induction ph using encLoop.induct src shift (src.length - 15) with
  | case1 table ne nh t nS0 s bb nS2 hgt =>
    intro hinv
    have hgt' : nS0 + (32 + t) >>> 5 > src.length - 15 := hgt
    rw [encLoopC]
    dsimp only
    rw [dif_pos hgt',
      encLoop_search_step src shift (src.length - 15) table ne nh t nS0
        ((32 + t) >>> 5) (nS0 + (32 + t) >>> 5) (table (nh &&& tableMask))
        (updTable table (nh &&& tableMask) (u16 nS0)) rfl rfl rfl rfl,
      if_pos hgt']
  | case2 table ne nh t nS0 s bb nS2 hle cand tbl2 hm ih =>
    intro hinv
    simp only [PhaseInv] at hinv
    obtain ⟨htab, hlt, hneL⟩ := hinv
    have hle' : ¬ nS0 + (32 + t) >>> 5 > src.length - 15 := hle
    have hm' : load32 src nS0 = load32 src (table (nh &&& tableMask)) := hm
    have hb1 : 1 ≤ (32 + t) >>> 5 := by
      have h32 : (32 + t) >>> 5 = (32 + t) / 32 := by
        simp [Nat.shiftRight_eq_div_pow]
      omega
    have hcand : table (nh &&& tableMask) < nS0 := htab _
    have hcur : nS0 < src.length - 15 := by omega
    have hinvC : PhaseInv src (src.length - 15)
        (.copy (updTable table (nh &&& tableMask) (u16 nS0)) nS0
          (table (nh &&& tableMask))) := by
      simp only [PhaseInv]
      refine ⟨?_, hcand, hcur, hm'⟩
      intro j
      rw [updTable]
      split
      · exact Nat.mod_le _ _
      · exact Nat.le_of_lt (htab j)
    have hih : encLoopC src shift (src.length - 15)
        (.copy (updTable table (nh &&& tableMask) (u16 nS0)) nS0
          (table (nh &&& tableMask))) =
        some (encLoop src shift (src.length - 15)
          (.copy (updTable table (nh &&& tableMask) (u16 nS0)) nS0
            (table (nh &&& tableMask)))) := ih hinvC
    rw [encLoopC]
    dsimp only
    rw [dif_neg hle',
      if_pos (show nh &&& tableMask < 16384 ∧ nS0 < 65536 ∧
        nS0 + (32 + t) >>> 5 + 4 ≤ src.length ∧ nS0 + 4 ≤ src.length ∧
        table (nh &&& tableMask) + 4 ≤ src.length from
        ⟨and_tableMask_lt nh, by omega, by omega, by omega, by omega⟩),
      if_pos hm', hih,
      encLoop_search_step src shift (src.length - 15) table ne nh t nS0
        ((32 + t) >>> 5) (nS0 + (32 + t) >>> 5) (table (nh &&& tableMask))
        (updTable table (nh &&& tableMask) (u16 nS0)) rfl rfl rfl rfl,
      if_neg hle', if_pos hm']
    rfl
  | case3 table ne nh t nS0 s bb nS2 t2 hle cand tbl2 nh2 hm ih =>
    intro hinv
    simp only [PhaseInv] at hinv
    obtain ⟨htab, hlt, hneL⟩ := hinv
    have hle' : ¬ nS0 + (32 + t) >>> 5 > src.length - 15 := hle
    have hm' : ¬ load32 src nS0 = load32 src (table (nh &&& tableMask)) := hm
    have hb1 : 1 ≤ (32 + t) >>> 5 := by
      have h32 : (32 + t) >>> 5 = (32 + t) / 32 := by
        simp [Nat.shiftRight_eq_div_pow]
      omega
    have hcand : table (nh &&& tableMask) < nS0 := htab _
    have hinvS : PhaseInv src (src.length - 15)
        (.search (updTable table (nh &&& tableMask) (u16 nS0)) ne
          (hash (load32 src (nS0 + (32 + t) >>> 5)) shift) (t + (32 + t) >>> 5)
          (nS0 + (32 + t) >>> 5)) := by
      simp only [PhaseInv]
      refine ⟨?_, by omega, hneL⟩
      intro j
      rw [updTable]
      split
      · have : u16 nS0 ≤ nS0 := Nat.mod_le _ _
        omega
      · have := htab j
        omega
    have hih : encLoopC src shift (src.length - 15)
        (.search (updTable table (nh &&& tableMask) (u16 nS0)) ne
          (hash (load32 src (nS0 + (32 + t) >>> 5)) shift) (t + (32 + t) >>> 5)
          (nS0 + (32 + t) >>> 5)) =
        some (encLoop src shift (src.length - 15)
          (.search (updTable table (nh &&& tableMask) (u16 nS0)) ne
            (hash (load32 src (nS0 + (32 + t) >>> 5)) shift) (t + (32 + t) >>> 5)
            (nS0 + (32 + t) >>> 5))) := ih hinvS
    rw [encLoopC]
    dsimp only
    rw [dif_neg hle',
      if_pos (show nh &&& tableMask < 16384 ∧ nS0 < 65536 ∧
        nS0 + (32 + t) >>> 5 + 4 ≤ src.length ∧ nS0 + 4 ≤ src.length ∧
        table (nh &&& tableMask) + 4 ≤ src.length from
        ⟨and_tableMask_lt nh, by omega, by omega, by omega, by omega⟩),
      if_neg hm', hih,
      encLoop_search_step src shift (src.length - 15) table ne nh t nS0
        ((32 + t) >>> 5) (nS0 + (32 + t) >>> 5) (table (nh &&& tableMask))
        (updTable table (nh &&& tableMask) (u16 nS0)) rfl rfl rfl rfl,
      if_neg hle', if_neg hm']
  | case4 table cursor candidate E ih1 ih2 =>
    intro hinv
    simp only [PhaseInv] at hinv
    obtain ⟨htab, hcand, hcur, hm⟩ := hinv
    have hEdef : E = extendMatch src (candidate + 4) (cursor + 4) := rfl
    have hs4 : cursor + 4 ≤ E := le_extendMatch src (candidate + 4) (cursor + 4)
    have hsm : E ≤ src.length :=
      extendMatch_le_length src (candidate + 4) (cursor + 4) (by omega)
    have hcursor1 : 1 ≤ cursor := by omega
    have hEC : extendMatchC src (candidate + 4) (cursor + 4) =
        some (extendMatch src (candidate + 4) (cursor + 4)) :=
      extendMatchC_eq src (candidate + 4) (cursor + 4) (by omega)
    rw [encLoopC]
    dsimp only
    rw [if_neg (show ¬ extendMatchC src (candidate + 4) (cursor + 4) ≠
        some (extendMatch src (candidate + 4) (cursor + 4)) from by
        rw [hEC]
        simp),
      encLoop_copy_step src shift (src.length - 15) table cursor candidate
        (extendMatch src (candidate + 4) (cursor + 4))
        (load64 src (extendMatch src (candidate + 4) (cursor + 4) - 1)) _ _ _
        rfl rfl rfl rfl rfl]
    rcases Nat.lt_or_ge (extendMatch src (candidate + 4) (cursor + 4))
      (src.length - 15) with hfin | hfin
    · rw [dif_neg (by omega :
        ¬ extendMatch src (candidate + 4) (cursor + 4) ≥ src.length - 15),
        if_neg (show ¬ src.length - 15 ≤ extendMatch src (candidate + 4) (cursor + 4)
          from by omega)]
      have hE1 : extendMatch src (candidate + 4) (cursor + 4) - 1 + 1 =
          extendMatch src (candidate + 4) (cursor + 4) := by omega
      have hload : u32 (load64 src
            (extendMatch src (candidate + 4) (cursor + 4) - 1) >>> 8) =
          load32 src (extendMatch src (candidate + 4) (cursor + 4)) := by
        rw [u32_load64_shift8 hsrc, hE1]
      have htab1 : ∀ j,
          updTable table (hash (u32 (load64 src
              (extendMatch src (candidate + 4) (cursor + 4) - 1))) shift &&& tableMask)
            (u16 (extendMatch src (candidate + 4) (cursor + 4) - 1)) j ≤
            extendMatch src (candidate + 4) (cursor + 4) - 1 := by
        intro j
        rw [updTable]
        split
        · exact Nat.mod_le _ _
        · have := htab j
          omega
      rw [if_pos (show
          extendMatch src (candidate + 4) (cursor + 4) - 1 + 8 ≤ src.length ∧
          extendMatch src (candidate + 4) (cursor + 4) - 1 < 65536 ∧
          extendMatch src (candidate + 4) (cursor + 4) < 65536 ∧
          hash (u32 (load64 src
            (extendMatch src (candidate + 4) (cursor + 4) - 1))) shift &&&
            tableMask < 16384 ∧
          hash (u32 (load64 src
            (extendMatch src (candidate + 4) (cursor + 4) - 1) >>> 8)) shift &&&
            tableMask < 16384 ∧
          updTable table (hash (u32 (load64 src
              (extendMatch src (candidate + 4) (cursor + 4) - 1))) shift &&& tableMask)
            (u16 (extendMatch src (candidate + 4) (cursor + 4) - 1))
            (hash (u32 (load64 src
              (extendMatch src (candidate + 4) (cursor + 4) - 1) >>> 8)) shift &&&
              tableMask) + 4 ≤ src.length from by
        refine ⟨by omega, by omega, by omega, and_tableMask_lt _, and_tableMask_lt _, ?_⟩
        have := htab1 (hash (u32 (load64 src
          (extendMatch src (candidate + 4) (cursor + 4) - 1) >>> 8)) shift &&& tableMask)
        omega)]
      by_cases hchain : u32 (load64 src
          (extendMatch src (candidate + 4) (cursor + 4) - 1) >>> 8) =
          load32 src (updTable table (hash (u32 (load64 src
              (extendMatch src (candidate + 4) (cursor + 4) - 1))) shift &&& tableMask)
            (u16 (extendMatch src (candidate + 4) (cursor + 4) - 1))
            (hash (u32 (load64 src
              (extendMatch src (candidate + 4) (cursor + 4) - 1) >>> 8)) shift &&&
              tableMask))
      · rw [if_pos hchain, if_pos hchain]
        have hinvC : PhaseInv src (src.length - 15)
            (.copy (updTable (updTable table (hash (u32 (load64 src
                  (extendMatch src (candidate + 4) (cursor + 4) - 1))) shift &&& tableMask)
                (u16 (extendMatch src (candidate + 4) (cursor + 4) - 1)))
                (hash (u32 (load64 src
                  (extendMatch src (candidate + 4) (cursor + 4) - 1) >>> 8)) shift &&&
                  tableMask) (u16 (extendMatch src (candidate + 4) (cursor + 4))))
              (extendMatch src (candidate + 4) (cursor + 4))
              (updTable table (hash (u32 (load64 src
                  (extendMatch src (candidate + 4) (cursor + 4) - 1))) shift &&& tableMask)
                (u16 (extendMatch src (candidate + 4) (cursor + 4) - 1))
                (hash (u32 (load64 src
                  (extendMatch src (candidate + 4) (cursor + 4) - 1) >>> 8)) shift &&&
                  tableMask))) := by
          simp only [PhaseInv]
          refine ⟨?_, ?_, hfin, ?_⟩
          · intro j
            rw [updTable]
            split
            · exact Nat.mod_le _ _
            · have := htab1 j
              omega
          · have := htab1 (hash (u32 (load64 src
              (extendMatch src (candidate + 4) (cursor + 4) - 1) >>> 8)) shift &&&
              tableMask)
            omega
          · exact hload.symm.trans hchain
        have hih := ih1 (by omega) hinvC
        have hih2 : encLoopC src shift (src.length - 15)
            (.copy (updTable (updTable table (hash (u32 (load64 src
                  (extendMatch src (candidate + 4) (cursor + 4) - 1))) shift &&& tableMask)
                (u16 (extendMatch src (candidate + 4) (cursor + 4) - 1)))
                (hash (u32 (load64 src
                  (extendMatch src (candidate + 4) (cursor + 4) - 1) >>> 8)) shift &&&
                  tableMask) (u16 (extendMatch src (candidate + 4) (cursor + 4))))
              (extendMatch src (candidate + 4) (cursor + 4))
              (updTable table (hash (u32 (load64 src
                  (extendMatch src (candidate + 4) (cursor + 4) - 1))) shift &&& tableMask)
                (u16 (extendMatch src (candidate + 4) (cursor + 4) - 1))
                (hash (u32 (load64 src
                  (extendMatch src (candidate + 4) (cursor + 4) - 1) >>> 8)) shift &&&
                  tableMask))) =
            some (encLoop src shift (src.length - 15)
              (.copy (updTable (updTable table (hash (u32 (load64 src
                    (extendMatch src (candidate + 4) (cursor + 4) - 1))) shift &&& tableMask)
                  (u16 (extendMatch src (candidate + 4) (cursor + 4) - 1)))
                  (hash (u32 (load64 src
                    (extendMatch src (candidate + 4) (cursor + 4) - 1) >>> 8)) shift &&&
                    tableMask) (u16 (extendMatch src (candidate + 4) (cursor + 4))))
                (extendMatch src (candidate + 4) (cursor + 4))
                (updTable table (hash (u32 (load64 src
                    (extendMatch src (candidate + 4) (cursor + 4) - 1))) shift &&& tableMask)
                  (u16 (extendMatch src (candidate + 4) (cursor + 4) - 1))
                  (hash (u32 (load64 src
                    (extendMatch src (candidate + 4) (cursor + 4) - 1) >>> 8)) shift &&&
                    tableMask)))) := hih
        rw [hih2]
        rfl
      · rw [if_neg hchain, if_neg hchain]
        have hinvS : PhaseInv src (src.length - 15)
            (.search (updTable (updTable table (hash (u32 (load64 src
                  (extendMatch src (candidate + 4) (cursor + 4) - 1))) shift &&& tableMask)
                (u16 (extendMatch src (candidate + 4) (cursor + 4) - 1)))
                (hash (u32 (load64 src
                  (extendMatch src (candidate + 4) (cursor + 4) - 1) >>> 8)) shift &&&
                  tableMask) (u16 (extendMatch src (candidate + 4) (cursor + 4))))
              (extendMatch src (candidate + 4) (cursor + 4))
              (hash (u32 (load64 src
                (extendMatch src (candidate + 4) (cursor + 4) - 1) >>> 16)) shift) 0
              (extendMatch src (candidate + 4) (cursor + 4) + 1)) := by
          simp only [PhaseInv]
          refine ⟨?_, by omega, by omega⟩
          intro j
          rw [updTable]
          split
          · have : u16 (extendMatch src (candidate + 4) (cursor + 4)) ≤
                extendMatch src (candidate + 4) (cursor + 4) := Nat.mod_le _ _
            omega
          · have := htab1 j
            omega
        have hih := ih2 (by omega) hinvS
        have hih2 : encLoopC src shift (src.length - 15)
            (.search (updTable (updTable table (hash (u32 (load64 src
                  (extendMatch src (candidate + 4) (cursor + 4) - 1))) shift &&& tableMask)
                (u16 (extendMatch src (candidate + 4) (cursor + 4) - 1)))
                (hash (u32 (load64 src
                  (extendMatch src (candidate + 4) (cursor + 4) - 1) >>> 8)) shift &&&
                  tableMask) (u16 (extendMatch src (candidate + 4) (cursor + 4))))
              (extendMatch src (candidate + 4) (cursor + 4))
              (hash (u32 (load64 src
                (extendMatch src (candidate + 4) (cursor + 4) - 1) >>> 16)) shift) 0
              (extendMatch src (candidate + 4) (cursor + 4) + 1)) =
            some (encLoop src shift (src.length - 15)
              (.search (updTable (updTable table (hash (u32 (load64 src
                    (extendMatch src (candidate + 4) (cursor + 4) - 1))) shift &&& tableMask)
                  (u16 (extendMatch src (candidate + 4) (cursor + 4) - 1)))
                  (hash (u32 (load64 src
                    (extendMatch src (candidate + 4) (cursor + 4) - 1) >>> 8)) shift &&&
                    tableMask) (u16 (extendMatch src (candidate + 4) (cursor + 4))))
                (extendMatch src (candidate + 4) (cursor + 4))
                (hash (u32 (load64 src
                  (extendMatch src (candidate + 4) (cursor + 4) - 1) >>> 16)) shift) 0
                (extendMatch src (candidate + 4) (cursor + 4) + 1))) := hih
        rw [hih2]
        rfl
    · rw [dif_pos (by omega), if_pos (by omega)]



/-! ### The framed-stream writer -/

/-- Modelled from the spec: the stream-identifier chunk `magicChunk` of
`snappy.go` (`"\xff\x06\x00\x00sNaPpY"`). -/
def magicChunk : List Nat := [0xff, 0x06, 0x00, 0x00, 0x73, 0x4e, 0x61, 0x50, 0x70, 0x59]

/-- Modelled from the spec: the `chunkTypeCompressedData` constant of
`snappy.go` (`0x00`). -/
def chunkTypeCompressedData : Nat := 0x00

/-- Modelled from the spec: the `chunkTypeUncompressedData` constant of
`snappy.go` (`0x01`). -/
def chunkTypeUncompressedData : Nat := 0x01

/-- Modelled from the spec: the checksum mask of `snappy.go`,
`((c >> 15) | (c << 17)) + 0xa282ead8` in `uint32` arithmetic. -/
def crcMask (c : Nat) : Nat :=
  (((c % 4294967296) >>> 15 ||| (c <<< 17) % 4294967296) + 0xa282ead8) % 4294967296

/-- Modelled from the spec: `crc(b)` of `snappy.go` is the masked CRC-32C
of `b`.  The CRC-32C table itself is outside the sources at hand, so the
raw checksum is a parameter `c` of the writer model throughout. -/
def crc (c : List Nat → Nat) (b : List Nat) : Nat := crcMask (c b)

/-- An error a writer call can return: an error from the underlying
`io.Writer` (identified by a numeric code) or `errClosed`. -/
inductive WErr where
  | sink (code : Nat)
  | closed
deriving DecidableEq

/-- The underlying `io.Writer`: the bytes accepted so far, plus a script
of outcomes for future calls (`none` = success, `some code` = fail with
that error).  An exhausted script means success.  A failing call accepts
nothing; the encoder only ever looks at the returned `err`. -/
structure Sink where
  out : List Nat
  errs : List (Option Nat)
deriving DecidableEq

/-- One `w.w.Write(b)` call against the scripted sink. -/
def sinkWrite (sk : Sink) (b : List Nat) : Sink × Option Nat :=
  match sk.errs with
  | [] => (⟨sk.out ++ b, []⟩, none)
  | none :: rest => (⟨sk.out ++ b, rest⟩, none)
  | some code :: rest => (⟨sk.out, rest⟩, some code)

/-- The state of a `Writer`: the sink `w.w`, the latched error `w.err`,
the input buffer `w.ibuf`, `buffered` standing for `w.ibuf != nil`, and
`w.wroteStreamHeader`.  (`w.obuf` is scratch space and needs no state.) -/
structure WState where
  sink : Sink
  werr : Option WErr
  ibuf : List Nat
  buffered : Bool
  wroteStreamHeader : Bool

/-- `NewWriter(w)`: unbuffered writer. -/
def newWriter (sk : Sink) : WState := ⟨sk, none, [], false, false⟩

/-- `NewBufferedWriter(w)`: buffered writer with an empty `ibuf` of
capacity `maxBlockSize`. -/
def newBufferedWriter (sk : Sink) : WState := ⟨sk, none, [], true, false⟩

/-- The eight bytes `Writer.write` stores at
`w.obuf[len(magicChunk) .. len(magicChunk)+8]`: chunk type, 3-byte
little-endian chunk length, 4-byte little-endian checksum. -/
def chunkHeader (chunkType chunkLen checksum : Nat) : List Nat :=
  [chunkType, u8 chunkLen, u8 (chunkLen >>> 8), u8 (chunkLen >>> 16),
   u8 checksum, u8 (checksum >>> 8), u8 (checksum >>> 16), u8 (checksum >>> 24)]

/-- The `chunkType` local of one `Writer.write` iteration on block `u`:
`0x00` by default, switched to `0x01` when compression saves less than
an eighth.  (`Encode(w.obuf[obufHeaderLen:], u)` is `encodeContent u`:
`len(u) ≤ 65536` never trips `ErrTooLarge`.) -/
def chunkTypeFor (u : List Nat) : Nat :=
  if (encodeContent u).length ≥ u.length - u.length / 8
  then chunkTypeUncompressedData else chunkTypeCompressedData

/-- The `chunkLen` local of one `Writer.write` iteration: four checksum
bytes plus the chosen payload. -/
def chunkLenFor (u : List Nat) : Nat :=
  if (encodeContent u).length ≥ u.length - u.length / 8
  then 4 + u.length else 4 + (encodeContent u).length

/-- The part of the chosen payload carried inside `w.obuf`
(`w.obuf[obufHeaderLen:obufEnd]`): the compressed bytes, or nothing when
the raw bytes follow in a second sink write. -/
def chunkBodyFor (u : List Nat) : List Nat :=
  if (encodeContent u).length ≥ u.length - u.length / 8
  then [] else encodeContent u

/-- The first sink write of one `Writer.write` iteration
(`w.obuf[obufStart:obufEnd]`): the stream header if not yet written, the
chunk header, and the in-`obuf` part of the payload. -/
def frameFor (c : List Nat → Nat) (wroteHeader : Bool) (u : List Nat) : List Nat :=
  (if wroteHeader then [] else magicChunk) ++
    chunkHeader (chunkTypeFor u) (chunkLenFor u) (crc c u) ++ chunkBodyFor u

/-- The `for len(p) > 0` loop of `Writer.write`, carrying the running
`nRet`.  Returns the final writer state, `nRet` and `errRet`. -/
def wwriteLoop (c : List Nat → Nat) (st : WState) (p : List Nat) (nRet : Nat) :
    WState × Nat × Option WErr :=
  if hp : p = [] then (st, nRet, none)
  else
    match sinkWrite st.sink (frameFor c st.wroteStreamHeader (p.take maxBlockSize)) with
    | (sk1, some code) =>
      ({st with sink := sk1, wroteStreamHeader := true, werr := some (WErr.sink code)},
        nRet, some (WErr.sink code))
    | (sk1, none) =>
      if chunkTypeFor (p.take maxBlockSize) = chunkTypeUncompressedData then
        match sinkWrite sk1 (p.take maxBlockSize) with
        | (sk2, some code) =>
          ({st with sink := sk2, wroteStreamHeader := true, werr := some (WErr.sink code)},
            nRet, some (WErr.sink code))
        | (sk2, none) =>
          wwriteLoop c {st with sink := sk2, wroteStreamHeader := true}
            (p.drop maxBlockSize) (nRet + (p.take maxBlockSize).length)
      else
        wwriteLoop c {st with sink := sk1, wroteStreamHeader := true}
          (p.drop maxBlockSize) (nRet + (p.take maxBlockSize).length)
termination_by p.length
decreasing_by
  all_goals
    simp only [List.length_drop]
    have hmax : maxBlockSize = 65536 := by norm_num [maxBlockSize]
    have hpos : 0 < p.length :=
      Nat.pos_of_ne_zero (fun h0 => hp (List.length_eq_zero.mp h0))
    omega

/-- `Writer.write(p)`: bail out on a latched error, else run the loop. -/
def wwrite (c : List Nat → Nat) (st : WState) (p : List Nat) :
    WState × Nat × Option WErr :=
  if st.werr = none then wwriteLoop c st p 0 else (st, 0, st.werr)

/-- `Writer.Flush()`: write out `ibuf`, truncate it, return `w.err`. -/
def WFlush (c : List Nat → Nat) (st : WState) : WState × Option WErr :=
  if st.werr = none then
    if st.ibuf = [] then (st, none)
    else ({(wwrite c st st.ibuf).1 with ibuf := []}, (wwrite c st st.ibuf).1.werr)
  else (st, st.werr)

/-- `Writer.Close()`: flush, remember `w.err`, latch `errClosed` if no
error was latched yet, return the remembered error. -/
def WClose (c : List Nat → Nat) (st : WState) : WState × Option WErr :=
  if (WFlush c st).1.werr = none then
    ({(WFlush c st).1 with werr := some WErr.closed}, none)
  else ((WFlush c st).1, (WFlush c st).1.werr)

/-- Behavior of `Writer.write`'s loop: it never touches `ibuf` or
`buffered`; on success it consumes all of `p` without latching anything;
on failure the returned error is exactly the latched one. -/
theorem wwriteLoop_run (c : List Nat → Nat) (st : WState) (p : List Nat) (nRet : Nat) :
    (wwriteLoop c st p nRet).1.ibuf = st.ibuf ∧
    (wwriteLoop c st p nRet).1.buffered = st.buffered ∧
    ((wwriteLoop c st p nRet).2.2 = none →
      (wwriteLoop c st p nRet).1.werr = st.werr ∧
      (wwriteLoop c st p nRet).2.1 = nRet + p.length) ∧
    ((wwriteLoop c st p nRet).2.2 ≠ none →
      (wwriteLoop c st p nRet).1.werr = (wwriteLoop c st p nRet).2.2) := by
  induction st, p, nRet using wwriteLoop.induct c with
  | case1 st nRet =>
    rw [wwriteLoop, dif_pos rfl]
    exact ⟨rfl, rfl, fun _ => ⟨rfl, by simp⟩, fun h => absurd rfl h⟩
  | case2 st p nRet hp sk1 code heq =>
    rw [wwriteLoop, dif_neg hp, heq]
    exact ⟨rfl, rfl, fun h => absurd h (by simp), fun _ => rfl⟩
  | case3 st p nRet hp sk1 heq hraw sk2 code heq2 =>
    rw [wwriteLoop, dif_neg hp, heq]
    dsimp only
    rw [if_pos hraw, heq2]
    exact ⟨rfl, rfl, fun h => absurd h (by simp), fun _ => rfl⟩
  | case4 st p nRet hp sk1 heq hraw sk2 heq2 ih =>
    rw [wwriteLoop, dif_neg hp, heq]
    dsimp only
    rw [if_pos hraw, heq2]
    dsimp only
    obtain ⟨h1, h2, h3, h4⟩ := ih
    refine ⟨h1, h2, fun h => ?_, h4⟩
    obtain ⟨ha, hb⟩ := h3 h
    refine ⟨ha, ?_⟩
    rw [hb]
    have hmax : maxBlockSize = 65536 := by norm_num [maxBlockSize]
    simp only [List.length_take, List.length_drop]
    omega
  | case5 st p nRet hp sk1 heq hraw ih =>
    rw [wwriteLoop, dif_neg hp, heq]
    dsimp only
    rw [if_neg hraw]
    obtain ⟨h1, h2, h3, h4⟩ := ih
    refine ⟨h1, h2, fun h => ?_, h4⟩
    obtain ⟨ha, hb⟩ := h3 h
    refine ⟨ha, ?_⟩
    rw [hb]
    have hmax : maxBlockSize = 65536 := by norm_num [maxBlockSize]
    simp only [List.length_take, List.length_drop]
    omega

/-- `Flush` leaves `ibuf` empty when it actually flushes. -/
theorem WFlush_ibuf (c : List Nat → Nat) (st : WState)
    (hn : st.werr = none) (hi : st.ibuf ≠ []) : (WFlush c st).1.ibuf = [] := by
  rw [WFlush, if_pos hn, if_neg hi]

/-- `Writer.write` behaves like its loop when no error is latched. -/
theorem wwrite_eq_loop (c : List Nat → Nat) (st : WState) (p : List Nat)
    (hn : st.werr = none) : wwrite c st p = wwriteLoop c st p 0 := by
  rw [wwrite, if_pos hn]

/-- The `for len(p) > (cap(w.ibuf)-len(w.ibuf)) && w.err == nil` loop of
the buffered `Writer.Write`, followed by the error check and the final
copy into `ibuf`. -/
def bufWriteLoop (c : List Nat → Nat) (st : WState) (p : List Nat) (nRet : Nat) :
    WState × Nat × Option WErr :=
  if h : maxBlockSize - st.ibuf.length < p.length ∧ st.werr = none then
    if h0 : st.ibuf.length = 0 then
      -- Large write, empty buffer: write directly from p.
      bufWriteLoop c (wwrite c st p).1 (p.drop (wwrite c st p).2.1)
        (nRet + (wwrite c st p).2.1)
    else
      -- Top the buffer up and flush it.
      bufWriteLoop c
        (WFlush c {st with ibuf := st.ibuf ++ p.take (maxBlockSize - st.ibuf.length)}).1
        (p.drop (min (maxBlockSize - st.ibuf.length) p.length))
        (nRet + min (maxBlockSize - st.ibuf.length) p.length)
  else if st.werr = none then
    ({st with ibuf := st.ibuf ++ p.take (maxBlockSize - st.ibuf.length)},
      nRet + min (maxBlockSize - st.ibuf.length) p.length, none)
  else (st, nRet, st.werr)
termination_by
  2 * p.length + (if st.ibuf = [] then 0 else 1) + (if st.werr = none then 1 else 0)
decreasing_by
  · -- Direct write from p: all consumed on success, error latched on failure.
    have hw : wwrite c st p = wwriteLoop c st p 0 := wwrite_eq_loop c st p h.2
    obtain ⟨hib, -, hok, herr⟩ := wwriteLoop_run c st p 0
    have hibe : st.ibuf = [] := List.length_eq_zero.mp h0
    have hmax : maxBlockSize = 65536 := by norm_num [maxBlockSize]
    have hlen : 0 < p.length := by omega
    rw [hw]
    rcases he : (wwriteLoop c st p 0).2.2 with _ | e
    · obtain ⟨ha, hb⟩ := hok he
      rw [Nat.zero_add] at hb
      rw [hb]
      simp [hib, hibe, ha, h.2]
      omega
    · have ha := herr (by simp [he])
      rw [ha, he]
      simp [hib, hibe, h.2, List.length_drop]
      omega
  · -- Fill-and-flush: the buffer comes back empty.
    have hne : st.ibuf ≠ [] := fun he => h0 (by simp [he])
    have hne2 : st.ibuf ++ p.take (maxBlockSize - st.ibuf.length) ≠ [] := by
      simp [hne]
    have hfl : (WFlush c
        {st with ibuf := st.ibuf ++ p.take (maxBlockSize - st.ibuf.length)}).1.ibuf = [] :=
      WFlush_ibuf c _ h.2 hne2
    rw [hfl]
    simp [List.length_drop, hne, h.2]
    split <;> omega

/-- `Writer.Write(p)`: buffered writers go through the buffering loop,
unbuffered ones straight to `Writer.write`. -/
def WWrite (c : List Nat → Nat) (st : WState) (p : List Nat) :
    WState × Nat × Option WErr :=
  if st.buffered then bufWriteLoop c st p 0 else wwrite c st p

/-- A sink write with no scripted failure appends the bytes. -/
theorem sinkWrite_nilErrs (sk : Sink) (b : List Nat) (h : sk.errs = []) :
    sinkWrite sk b = (⟨sk.out ++ b, []⟩, none) := by
  obtain ⟨o, e⟩ := sk
  have h2 : e = [] := h
  subst h2
  rfl

/-- One block through `Writer.write` with a healthy sink: the sink
receives the frame (stream header if due, chunk header, compressed body)
and, for an uncompressed chunk, the raw bytes; all of `p` is consumed
and no error is latched. -/
theorem wwrite_one_block (c : List Nat → Nat) (st : WState) (p : List Nat)
    (h1 : st.werr = none) (h2 : st.sink.errs = []) (h3 : p ≠ [])
    (h4 : p.length ≤ maxBlockSize) :
    (wwrite c st p).1.sink.out =
      st.sink.out ++ frameFor c st.wroteStreamHeader p ++
        (if chunkTypeFor p = chunkTypeUncompressedData then p else []) ∧
    (wwrite c st p).2.2 = none ∧ (wwrite c st p).2.1 = p.length := by
  rw [wwrite_eq_loop c st p h1]
  rw [wwriteLoop, dif_neg h3]
  have htake : p.take maxBlockSize = p := List.take_of_length_le h4
  have hdrop : p.drop maxBlockSize = [] := List.drop_eq_nil_of_le h4
  rw [htake, hdrop]
  rw [sinkWrite_nilErrs _ _ h2]
  dsimp only
  by_cases hct : chunkTypeFor p = chunkTypeUncompressedData
  · rw [if_pos hct, sinkWrite_nilErrs _ _ rfl]
    dsimp only
    rw [wwriteLoop, dif_pos rfl, if_pos hct]
    refine ⟨?_, rfl, by simp⟩
    simp [List.append_assoc]
  · rw [if_neg hct, wwriteLoop, dif_pos rfl, if_neg hct]
    exact ⟨by simp, rfl, by simp⟩

/-- A write that fits in the remaining buffer space is copied into
`ibuf` whole; nothing is flushed. -/
theorem bufWriteLoop_fits (c : List Nat → Nat) (st : WState) (p : List Nat) (nRet : Nat)
    (hw : st.werr = none) (hfit : p.length ≤ maxBlockSize - st.ibuf.length) :
    bufWriteLoop c st p nRet = ({st with ibuf := st.ibuf ++ p}, nRet + p.length, none) := by
  conv_lhs => rw [bufWriteLoop]
  rw [dif_neg (fun hcon => absurd hcon.1 (by omega)), if_pos hw]
  have ht : p.take (maxBlockSize - st.ibuf.length) = p := List.take_of_length_le hfit
  have hm : min (maxBlockSize - st.ibuf.length) p.length = p.length :=
    Nat.min_eq_right hfit
  rw [ht, hm]

/-- A write strictly larger than the whole buffer, arriving on an empty
buffer, goes directly through `Writer.write` without touching `ibuf`. -/
theorem bufWriteLoop_direct (c : List Nat → Nat) (st : WState) (p : List Nat) (nRet : Nat)
    (hw : st.werr = none) (h0 : st.ibuf = []) (hbig : maxBlockSize < p.length) :
    bufWriteLoop c st p nRet =
      bufWriteLoop c (wwrite c st p).1 (p.drop (wwrite c st p).2.1)
        (nRet + (wwrite c st p).2.1) := by
  have h0l : st.ibuf.length = 0 := by rw [h0]; rfl
  conv_lhs => rw [bufWriteLoop]
  rw [dif_pos ⟨by omega, hw⟩, dif_pos h0l]

/-- A write that overflows a non-empty buffer first tops the buffer up
to exactly `maxBlockSize` bytes and flushes it. -/
theorem bufWriteLoop_fillflush (c : List Nat → Nat) (st : WState) (p : List Nat) (nRet : Nat)
    (hw : st.werr = none) (h0 : st.ibuf ≠ [])
    (hcap : st.ibuf.length ≤ maxBlockSize)
    (hbig : maxBlockSize - st.ibuf.length < p.length) :
    bufWriteLoop c st p nRet =
      bufWriteLoop c
        (WFlush c {st with ibuf := st.ibuf ++ p.take (maxBlockSize - st.ibuf.length)}).1
        (p.drop (min (maxBlockSize - st.ibuf.length) p.length))
        (nRet + min (maxBlockSize - st.ibuf.length) p.length) ∧
    (st.ibuf ++ p.take (maxBlockSize - st.ibuf.length)).length = maxBlockSize := by
  have h0l : st.ibuf.length ≠ 0 := fun hz => h0 (List.length_eq_zero.mp hz)
  constructor
  · conv_lhs => rw [bufWriteLoop]
    rw [dif_pos ⟨hbig, hw⟩, dif_neg h0l]
  · simp only [List.length_append, List.length_take]
    omega

/-! ### The claims -/

/-- Concrete run of `Encode` on the one-byte input `[5]`: varint `1`,
then a single one-byte literal chunk. -/
theorem Encode_single : Encode [] [5] = some [1, 0, 5] := by
  have hl : List.length [5] = 1 := rfl
  have e1 : encodeOps [5] = [Op.lit [5]] := by
    rw [encodeOps]
    norm_num [blockOps, minNonLiteralBlockSize, inputMargin, maxBlockSize]
  have e2 : putUvarint 1 = [1] := by
    rw [putUvarint]
    norm_num
  rw [Encode, if_neg (by decide), encodeContent, encodeBytes, hl, e1, e2]
  decide

/-- The singleton `[5]` is a byte string. -/
theorem bytesP_five : BytesP [5] := by
  intro b hb
  simp at hb
  omega

/-- An 18-byte run of `97` is a byte string. -/
theorem bytesP_rep18 : BytesP (List.replicate 18 97) := by
  intro b hb
  have hbe : b = 97 := List.eq_of_mem_replicate hb
  omega

/-- C1: every input `Encode` accepts round-trips: the output's leading
varint is `len(src)`, the reference decoder rebuilds `src` exactly from
the tagged chunks, and the decoded literal and copy lengths sum to
`len(src)`. -/
theorem claim_C1 (dst src out : List Nat) (hsrc : BytesP src)
    (hacc : Encode dst src = some out) :
    readUvarint out = some (src.length, encodeBytes src) ∧
    decodeChunks [] (encodeBytes src) = some src ∧
    opsLen (encodeOps src) = src.length := by
  have hout : out = encodeContent src := by
    rw [Encode] at hacc
    split at hacc
    · exact absurd hacc (by simp)
    · exact (Option.some_inj.mp hacc).symm
  obtain ⟨hWF, hDec, hB⟩ := encodeOps_spec src hsrc
  have hd0 : applyOps [] (encodeOps src) = src := by
    have := hDec []
    rwa [List.nil_append] at this
  refine ⟨?_, ?_, ?_⟩
  · rw [hout, encodeContent, readUvarint_putUvarint]
  · have h0 : OpsWF (List.length ([] : List Nat)) (encodeOps src) := hWF
    have hchain := decodeChunks_opsBytes (encodeOps src) [] [] h0
    rw [List.append_nil] at hchain
    rw [encodeBytes, hchain, hd0, decodeChunks]
  · have hlen := applyOps_length (encodeOps src) []
    rw [hd0] at hlen
    simpa using hlen.symm

/-- C1 at the concrete input `[5]`. -/
theorem claim_C1_inst :
    BytesP [5] ∧ Encode [] [5] = some [1, 0, 5] ∧
    (readUvarint [1, 0, 5] = some (1, encodeBytes [5]) ∧
      decodeChunks [] (encodeBytes [5]) = some [5] ∧
      opsLen (encodeOps [5]) = 1) :=
  ⟨bytesP_five, Encode_single, claim_C1 [] [5] [1, 0, 5] bytesP_five Encode_single⟩

/-- C2: the encoder's output never exceeds `MaxEncodedLen`, which equals
`32 + n + n/6` (integer division) below the `uint32` limit and is
negative past it. -/
theorem claim_C2 (dst src out : List Nat) (hsrc : BytesP src)
    (hacc : Encode dst src = some out) :
    (out.length : Int) ≤ MaxEncodedLen src.length ∧
    (∀ n : Nat, n ≤ 0xffffffff → 32 + n + n / 6 ≤ 0xffffffff →
      MaxEncodedLen n = ((32 + n + n / 6 : Nat) : Int)) ∧
    (∀ n : Nat, 0xffffffff < n ∨ 0xffffffff < 32 + n + n / 6 →
      MaxEncodedLen n < 0) := by
  have hform : ∀ n : Nat, n ≤ 0xffffffff → 32 + n + n / 6 ≤ 0xffffffff →
      MaxEncodedLen n = ((32 + n + n / 6 : Nat) : Int) := by
    intro n h1 h2
    rw [MaxEncodedLen, if_neg (by omega), if_neg (by omega)]
    omega
  have hneg : ∀ n : Nat, 0xffffffff < n ∨ 0xffffffff < 32 + n + n / 6 →
      MaxEncodedLen n < 0 := by
    intro n h
    rw [MaxEncodedLen]
    rcases h with h | h
    · rw [if_pos (by omega)]
      norm_num
    · by_cases hn : 0xffffffff < n
      · rw [if_pos (by omega)]
        norm_num
      · rw [if_neg (by omega), if_pos (by omega)]
        norm_num
  have hcond : ¬ MaxEncodedLen src.length < 0 ∧ out = encodeContent src := by
    rw [Encode] at hacc
    split at hacc
    · exact absurd hacc (by simp)
    · next hc => exact ⟨hc, (Option.some_inj.mp hacc).symm⟩
  have h1 : src.length ≤ 0xffffffff := by
    by_contra hgt
    exact hcond.1 (hneg src.length (Or.inl (by omega)))
  have h2 : 32 + src.length + src.length / 6 ≤ 0xffffffff := by
    by_contra hgt
    exact hcond.1 (hneg src.length (Or.inr (by omega)))
  have hb : out.length ≤ 32 + src.length + src.length / 6 := by
    rw [hcond.2, encodeContent]
    have hp : (putUvarint src.length).length ≤ 5 :=
      putUvarint_length_le 4 src.length (by norm_num; omega)
    obtain ⟨-, -, hBB⟩ := encodeOps_spec src hsrc
    have hEB : (encodeBytes src).length = (opsBytes (encodeOps src)).length := rfl
    simp only [List.length_append]
    omega
  rw [hform src.length h1 h2]
  exact ⟨by exact_mod_cast hb, hform, hneg⟩

/-- C2 at the concrete input `[5]`. -/
theorem claim_C2_inst :
    BytesP [5] ∧ Encode [] [5] = some [1, 0, 5] ∧
    ((3 : Int) ≤ MaxEncodedLen 1 ∧
      (∀ n : Nat, n ≤ 0xffffffff → 32 + n + n / 6 ≤ 0xffffffff →
        MaxEncodedLen n = ((32 + n + n / 6 : Nat) : Int)) ∧
      (∀ n : Nat, 0xffffffff < n ∨ 0xffffffff < 32 + n + n / 6 →
        MaxEncodedLen n < 0)) :=
  ⟨bytesP_five, Encode_single, claim_C2 [] [5] [1, 0, 5] bytesP_five Encode_single⟩

/-- C3: every copy `encodeBlock` emits has offset in `[1, 65535]`,
length at least 4, and offset at most the current decoded position, and
the block starts with a (non-empty) literal chunk. -/
theorem claim_C3 (src : List Nat) (hsrc : BytesP src) (h17 : 17 ≤ src.length)
    (h65536 : src.length ≤ 65536) :
    OpsWF 0 (encodeBlockOps src) ∧
    ∃ l rest, encodeBlockOps src = Op.lit l :: rest ∧ 1 ≤ l.length := by
  obtain ⟨hWF, -, -, hHead⟩ := encodeBlockOps_spec src hsrc h17 h65536
  exact ⟨hWF, hHead⟩

/-- C3 at a concrete 18-byte block. -/
theorem claim_C3_inst :
    BytesP (List.replicate 18 97) ∧ 17 ≤ (List.replicate 18 97).length ∧
    (List.replicate 18 97).length ≤ 65536 ∧
    (OpsWF 0 (encodeBlockOps (List.replicate 18 97)) ∧
      ∃ l rest, encodeBlockOps (List.replicate 18 97) = Op.lit l :: rest ∧
        1 ≤ l.length) :=
  ⟨bytesP_rep18, by decide, by decide,
    claim_C3 (List.replicate 18 97) bytesP_rep18 (by decide) (by decide)⟩

/-- C4: `emitCopy` peels 3-byte length-64 `COPY_2` chunks while at least
68 bytes remain, emits a length-60 `COPY_2` when more than 64 remain,
and finishes with a 3-byte `COPY_2` when 12 or more bytes remain or the
offset is at least 2048, else a 2-byte `COPY_1`. -/
theorem claim_C4 (offset length : Nat) (ho1 : 1 ≤ offset) (ho2 : offset ≤ 65535)
    (h4 : 4 ≤ length) (h65535 : length ≤ 65535) :
    emitCopy offset length =
      (List.replicate ((length - 4) / 64)
        [63 <<< 2 ||| tagCopy2, offset % 256, offset / 256]).flatten ++
        (if 64 < length - 64 * ((length - 4) / 64) then
          [59 <<< 2 ||| tagCopy2, offset % 256, offset / 256] ++
            emitCopyTail offset (length - 64 * ((length - 4) / 64) - 60)
        else emitCopyTail offset (length - 64 * ((length - 4) / 64))) ∧
    ∀ l, 4 ≤ l → l ≤ 64 → emitCopyTail offset l =
      if 12 ≤ l ∨ 2048 ≤ offset then
        [(l - 1) * 4 + tagCopy2, offset % 256, offset / 256]
      else [(offset / 256) * 32 + (l - 4) * 4 + tagCopy1, offset % 256] := by
  have e1 : (63 <<< 2 ||| tagCopy2 : Nat) = 254 := by decide
  have e2 : (59 <<< 2 ||| tagCopy2 : Nat) = 238 := by decide
  constructor
  · rw [emitCopy_eq ho1 ho2 h4 h65535, e1, e2]
  · intro l hl4 hl64
    rw [emitCopyTail_eq ho1 ho2 hl4 hl64, tagCopy2, tagCopy1]

/-- C4 at offset 1, length 70. -/
theorem claim_C4_inst :
    1 ≤ 1 ∧ (1 : Nat) ≤ 65535 ∧ 4 ≤ 70 ∧ (70 : Nat) ≤ 65535 ∧
    (emitCopy 1 70 =
      (List.replicate ((70 - 4) / 64) [63 <<< 2 ||| tagCopy2, 1 % 256, 1 / 256]).flatten ++
        (if 64 < 70 - 64 * ((70 - 4) / 64) then
          [59 <<< 2 ||| tagCopy2, 1 % 256, 1 / 256] ++
            emitCopyTail 1 (70 - 64 * ((70 - 4) / 64) - 60)
        else emitCopyTail 1 (70 - 64 * ((70 - 4) / 64))) ∧
      ∀ l, 4 ≤ l → l ≤ 64 → emitCopyTail 1 l =
        if 12 ≤ l ∨ 2048 ≤ (1 : Nat) then
          [(l - 1) * 4 + tagCopy2, 1 % 256, 1 / 256]
        else [(1 / 256) * 32 + (l - 4) * 4 + tagCopy1, 1 % 256]) :=
  ⟨by decide, by decide, by decide, by decide,
    claim_C4 1 70 (by decide) (by decide) (by decide) (by decide)⟩

/-- C5: `emitLiteral` writes the shortest header for `n = len(lit) - 1`
(1 byte inline below 60, 2 bytes below 256, else 3 bytes with `n` in
little-endian order) followed by the literal bytes, and the total length
is the header length plus `len(lit)`. -/
theorem claim_C5 (lit : List Nat) (h1 : 1 ≤ lit.length) (h2 : lit.length ≤ 65536) :
    emitLiteral lit =
      (if lit.length - 1 < 60 then [(lit.length - 1) <<< 2 ||| tagLiteral]
       else if lit.length - 1 < 256 then [60 <<< 2 ||| tagLiteral, lit.length - 1]
       else [61 <<< 2 ||| tagLiteral, (lit.length - 1) % 256, (lit.length - 1) / 256]) ++
        lit ∧
    (emitLiteral lit).length = litHdrLen lit.length + lit.length := by
  have e2 : (60 <<< 2 ||| tagLiteral : Nat) = 240 := by decide
  have e3 : (61 <<< 2 ||| tagLiteral : Nat) = 244 := by decide
  constructor
  · rw [emitLiteral_eq h1 h2, e2, e3]
    by_cases ha : lit.length ≤ 60
    · rw [if_pos ha, if_pos (by omega)]
      congr 2
      rw [tagLiteral, Nat.shiftLeft_eq]
      simp
    · by_cases hb : lit.length ≤ 256
      · rw [if_neg ha, if_pos hb, if_neg (by omega), if_pos (by omega)]
      · rw [if_neg ha, if_neg hb, if_neg (by omega), if_neg (by omega)]
  · exact emitLiteral_length h1 h2

/-- C5 at a concrete 3-byte literal. -/
theorem claim_C5_inst :
    1 ≤ ([9, 8, 7] : List Nat).length ∧ ([9, 8, 7] : List Nat).length ≤ 65536 ∧
    (emitLiteral [9, 8, 7] =
      (if ([9, 8, 7] : List Nat).length - 1 < 60 then
        [(([9, 8, 7] : List Nat).length - 1) <<< 2 ||| tagLiteral]
       else if ([9, 8, 7] : List Nat).length - 1 < 256 then
        [60 <<< 2 ||| tagLiteral, ([9, 8, 7] : List Nat).length - 1]
       else [61 <<< 2 ||| tagLiteral, (([9, 8, 7] : List Nat).length - 1) % 256,
        (([9, 8, 7] : List Nat).length - 1) / 256]) ++ [9, 8, 7] ∧
      (emitLiteral [9, 8, 7]).length =
        litHdrLen ([9, 8, 7] : List Nat).length + ([9, 8, 7] : List Nat).length) :=
  ⟨by decide, by decide, claim_C5 [9, 8, 7] (by decide) (by decide)⟩

/-- C6 (amended): the table size `encodeBlock` picks is the smallest
power of two in `[256, 16384]` that is at least `len(src)` (capped at
16384), not the largest one not exceeding it; `shift = 32 - log2(tableSize)`
and hashes are `(u * 0x1e35a7bd) >> shift` in `uint32` arithmetic. -/
theorem claim_C6 (n : Nat) (h17 : 17 ≤ n) (h65536 : n ≤ 65536) :
    ∃ k, tableSizeFor n = 2 ^ k ∧ 8 ≤ k ∧ k ≤ 14 ∧
      (n ≤ tableSizeFor n ∨ tableSizeFor n = 16384) ∧
      (tableSizeFor n = 256 ∨ tableSizeFor n / 2 < n) ∧
      shiftFor n = 32 - k ∧
      ∀ u, hash u (shiftFor n) = ((u * 0x1e35a7bd) % 2 ^ 32) >>> (32 - k) := by
  have hle : tsLoop n 0 ≤ 6 := tsLoop_le n 0 (by omega)
  have hexit := tsLoop_exit n 0
  have hlast := tsLoop_last n 0
  have hub : 2 ^ tsLoop n 0 ≤ 2 ^ 6 := Nat.pow_le_pow_right (by norm_num) hle
  have hts : tableSizeFor n = 2 ^ (8 + tsLoop n 0) := by
    rw [tableSizeFor, pow_add]
    norm_num
  have hshift : shiftFor n = 32 - (8 + tsLoop n 0) := by
    rw [shiftFor]
    omega
  have hmax : maxTableSize = 16384 := by decide
  refine ⟨8 + tsLoop n 0, hts, by omega, by omega, ?_, ?_, hshift, ?_⟩
  · rw [hmax] at hexit
    rcases Nat.lt_or_ge (256 * 2 ^ tsLoop n 0) 16384 with hc | hc
    · left
      have hnb : n ≤ 256 * 2 ^ tsLoop n 0 := by
        by_contra hlt
        exact hexit ⟨hc, by omega⟩
      calc n ≤ 256 * 2 ^ tsLoop n 0 := hnb
        _ = 2 ^ (8 + tsLoop n 0) := by rw [pow_add]; norm_num
        _ = tableSizeFor n := hts.symm
    · right
      have hb1 : 256 * 2 ^ tsLoop n 0 ≤ 16384 := by
        have := Nat.mul_le_mul_left 256 hub
        omega
      have hb2 : 2 ^ (8 + tsLoop n 0) = 256 * 2 ^ tsLoop n 0 := by
        rw [pow_add]
        norm_num
      rw [hts]
      omega
  · rcases hlast with h0 | ⟨hpos, hlt⟩
    · left
      rw [hts, h0]
      norm_num
    · right
      have h2t : 256 * 2 ^ tsLoop n 0 = 2 * (256 * 2 ^ (tsLoop n 0 - 1)) := by
        have he : 2 ^ tsLoop n 0 = 2 ^ (tsLoop n 0 - 1) * 2 := by
          rw [← pow_succ]
          congr 1
          omega
        rw [he]
        ring
      have hdiv : tableSizeFor n / 2 = 256 * 2 ^ (tsLoop n 0 - 1) := by
        rw [tableSizeFor, h2t]
        omega
      rw [hdiv]
      exact hlt
  · intro u
    rw [hash, hshift]
    norm_num

/-- C6 counterexample: for a 300-byte block the code's table size is
512, which exceeds the block length, while the spec's "largest power of
two not exceeding `len(src)`" would give 256. -/
theorem claim_C6_counterexample :
    tableSizeFor 300 = 512 ∧ ¬ tableSizeFor 300 ≤ 300 := by
  have h : tsLoop 300 0 = 0 + 1 := by
    rw [tsLoop, dif_pos (by decide), tsLoop, dif_neg (by decide)]
  rw [tableSizeFor, h]
  norm_num

/-- C6 at the concrete block length 300. -/
theorem claim_C6_inst :
    (17 : Nat) ≤ 300 ∧ (300 : Nat) ≤ 65536 ∧
    (∃ k, tableSizeFor 300 = 2 ^ k ∧ 8 ≤ k ∧ k ≤ 14 ∧
      (300 ≤ tableSizeFor 300 ∨ tableSizeFor 300 = 16384) ∧
      (tableSizeFor 300 = 256 ∨ tableSizeFor 300 / 2 < 300) ∧
      shiftFor 300 = 32 - k ∧
      ∀ u, hash u (shiftFor 300) = ((u * 0x1e35a7bd) % 2 ^ 32) >>> (32 - k)) :=
  ⟨by decide, by decide, claim_C6 300 (by decide) (by decide)⟩

/-- C7: a successfully emitted data chunk is the chunk header (type,
3-byte little-endian length `4 + len(payload)`, 4-byte little-endian
masked CRC of the uncompressed bytes) followed by the payload, which is
the snappy-encoded block (type `0x00`) exactly when the encoding beats
7/8 of the uncompressed size, and the raw bytes (type `0x01`) otherwise. -/
theorem claim_C7 (c : List Nat → Nat) (st : WState) (p : List Nat)
    (h1 : st.werr = none) (h2 : st.sink.errs = []) (h3 : p ≠ [])
    (h4 : p.length ≤ maxBlockSize) :
    ((wwrite c st p).1.sink.out =
      st.sink.out ++ (if st.wroteStreamHeader then [] else magicChunk) ++
        chunkHeader (chunkTypeFor p) (chunkLenFor p) (crc c p) ++ chunkBodyFor p ++
        (if chunkTypeFor p = chunkTypeUncompressedData then p else []) ∧
      (wwrite c st p).2.2 = none) ∧
    ((encodeContent p).length < p.length - p.length / 8 →
      chunkTypeFor p = 0x00 ∧ chunkBodyFor p = encodeContent p ∧
      chunkLenFor p = 4 + (encodeContent p).length) ∧
    (¬ (encodeContent p).length < p.length - p.length / 8 →
      chunkTypeFor p = 0x01 ∧ chunkBodyFor p = [] ∧
      (if chunkTypeFor p = chunkTypeUncompressedData then p else []) = p ∧
      chunkLenFor p = 4 + p.length) ∧
    chunkHeader (chunkTypeFor p) (chunkLenFor p) (crc c p) =
      [chunkTypeFor p, u8 (chunkLenFor p), u8 (chunkLenFor p >>> 8),
        u8 (chunkLenFor p >>> 16), u8 (crc c p), u8 (crc c p >>> 8),
        u8 (crc c p >>> 16), u8 (crc c p >>> 24)] ∧
    crc c p = crcMask (c p) := by
  obtain ⟨ho, he, -⟩ := wwrite_one_block c st p h1 h2 h3 h4
  refine ⟨⟨?_, he⟩, ?_, ?_, rfl, rfl⟩
  · rw [ho, frameFor]
    simp [List.append_assoc]
  · intro h
    refine ⟨?_, ?_, ?_⟩
    · rw [chunkTypeFor, if_neg (by omega)]
      rfl
    · rw [chunkBodyFor, if_neg (by omega)]
    · rw [chunkLenFor, if_neg (by omega)]
  · intro h
    have hA : chunkTypeFor p = 0x01 := by
      rw [chunkTypeFor, if_pos (by omega)]
      rfl
    refine ⟨hA, ?_, ?_, ?_⟩
    · rw [chunkBodyFor, if_pos (by omega)]
    · rw [if_pos (hA.trans (by rfl))]
    · rw [chunkLenFor, if_pos (by omega)]

/-- C7 on a fresh writer and the one-byte block `[7]`. -/
theorem claim_C7_inst :
    (newWriter ⟨[], []⟩).werr = none ∧ (newWriter ⟨[], []⟩).sink.errs = [] ∧
    ([7] : List Nat) ≠ [] ∧ ([7] : List Nat).length ≤ maxBlockSize ∧
    (((wwrite (fun _ => 0) (newWriter ⟨[], []⟩) [7]).1.sink.out =
      (newWriter ⟨[], []⟩).sink.out ++
        (if (newWriter ⟨[], []⟩).wroteStreamHeader then [] else magicChunk) ++
        chunkHeader (chunkTypeFor [7]) (chunkLenFor [7]) (crc (fun _ => 0) [7]) ++
        chunkBodyFor [7] ++
        (if chunkTypeFor [7] = chunkTypeUncompressedData then [7] else []) ∧
      (wwrite (fun _ => 0) (newWriter ⟨[], []⟩) [7]).2.2 = none) ∧
    ((encodeContent [7]).length < ([7] : List Nat).length - ([7] : List Nat).length / 8 →
      chunkTypeFor [7] = 0x00 ∧ chunkBodyFor [7] = encodeContent [7] ∧
      chunkLenFor [7] = 4 + (encodeContent [7]).length) ∧
    (¬ (encodeContent [7]).length < ([7] : List Nat).length - ([7] : List Nat).length / 8 →
      chunkTypeFor [7] = 0x01 ∧ chunkBodyFor [7] = [] ∧
      (if chunkTypeFor [7] = chunkTypeUncompressedData then [7] else []) = [7] ∧
      chunkLenFor [7] = 4 + ([7] : List Nat).length) ∧
    chunkHeader (chunkTypeFor [7]) (chunkLenFor [7]) (crc (fun _ => 0) [7]) =
      [chunkTypeFor [7], u8 (chunkLenFor [7]), u8 (chunkLenFor [7] >>> 8),
        u8 (chunkLenFor [7] >>> 16), u8 (crc (fun _ => 0) [7]),
        u8 (crc (fun _ => 0) [7] >>> 8), u8 (crc (fun _ => 0) [7] >>> 16),
        u8 (crc (fun _ => 0) [7] >>> 24)] ∧
    crc (fun _ => 0) [7] = crcMask ((fun _ => 0) [7])) :=
  ⟨rfl, rfl, by decide, by decide,
    claim_C7 (fun _ => 0) (newWriter ⟨[], []⟩) [7] rfl rfl (by decide) (by decide)⟩

/-- C8 counterexample: a block-sized (65536-byte) `Write` into a fresh
buffered writer is copied into `ibuf` and nothing reaches the sink — it
is not passed through to block encoding. -/
theorem claim_C8_counterexample :
    (WWrite (fun _ => 0) (newBufferedWriter ⟨[], []⟩) (List.replicate 65536 0)).1.ibuf =
      List.replicate 65536 0 ∧
    (WWrite (fun _ => 0) (newBufferedWriter ⟨[], []⟩) (List.replicate 65536 0)).1.sink.out =
      [] := by
  have hfit : (List.replicate 65536 0).length ≤
      maxBlockSize - (newBufferedWriter ⟨[], []⟩).ibuf.length := by
    simp only [newBufferedWriter, List.length_replicate, List.length_nil]
    norm_num [maxBlockSize]
  have h := bufWriteLoop_fits (fun _ => 0) (newBufferedWriter ⟨[], []⟩)
    (List.replicate 65536 0) 0 rfl hfit
  have hW : WWrite (fun _ => 0) (newBufferedWriter ⟨[], []⟩) (List.replicate 65536 0) =
      ({newBufferedWriter ⟨[], []⟩ with
        ibuf := (newBufferedWriter ⟨[], []⟩).ibuf ++ List.replicate 65536 0},
        0 + (List.replicate 65536 0).length, none) := by
    rw [WWrite, if_pos (by rfl)]
    exact h
  rw [hW]
  exact ⟨rfl, rfl⟩

/-- C8 (amended): a buffered `Write` that fits in the remaining buffer
space only fills `ibuf`; when the incoming bytes overflow a non-empty
buffer, the buffer is topped up to exactly `maxBlockSize` bytes and
flushed as one block; and the direct pass-through happens only for
pieces strictly larger than `maxBlockSize` arriving on an empty buffer
(an exactly block-sized piece is buffered instead). -/
theorem claim_C8 (c : List Nat → Nat) (st : WState) (p : List Nat)
    (hb : st.buffered = true) (hw : st.werr = none) :
    (p.length ≤ maxBlockSize - st.ibuf.length →
      WWrite c st p = ({st with ibuf := st.ibuf ++ p}, p.length, none)) ∧
    (∀ nRet, st.ibuf = [] → maxBlockSize < p.length →
      bufWriteLoop c st p nRet =
        bufWriteLoop c (wwrite c st p).1 (p.drop (wwrite c st p).2.1)
          (nRet + (wwrite c st p).2.1)) ∧
    (∀ nRet, st.ibuf ≠ [] → st.ibuf.length ≤ maxBlockSize →
      maxBlockSize - st.ibuf.length < p.length →
      bufWriteLoop c st p nRet =
        bufWriteLoop c
          (WFlush c {st with ibuf := st.ibuf ++ p.take (maxBlockSize - st.ibuf.length)}).1
          (p.drop (min (maxBlockSize - st.ibuf.length) p.length))
          (nRet + min (maxBlockSize - st.ibuf.length) p.length) ∧
      (st.ibuf ++ p.take (maxBlockSize - st.ibuf.length)).length = maxBlockSize) := by
  refine ⟨?_, ?_, ?_⟩
  · intro hfit
    have h := bufWriteLoop_fits c st p 0 hw hfit
    rw [Nat.zero_add] at h
    rw [WWrite, if_pos hb]
    exact h
  · intro nRet h0 hbig
    exact bufWriteLoop_direct c st p nRet hw h0 hbig
  · intro nRet h0 hcap hbig
    exact bufWriteLoop_fillflush c st p nRet hw h0 hcap hbig

/-- C8 on a fresh buffered writer and a 3-byte write. -/
theorem claim_C8_inst :
    (newBufferedWriter ⟨[], []⟩).buffered = true ∧
    (newBufferedWriter ⟨[], []⟩).werr = none ∧
    ((([3, 2, 1] : List Nat).length ≤
        maxBlockSize - (newBufferedWriter ⟨[], []⟩).ibuf.length →
      WWrite (fun _ => 0) (newBufferedWriter ⟨[], []⟩) [3, 2, 1] =
        ({newBufferedWriter ⟨[], []⟩ with
          ibuf := (newBufferedWriter ⟨[], []⟩).ibuf ++ [3, 2, 1]}, 3, none)) ∧
    (∀ nRet, (newBufferedWriter ⟨[], []⟩).ibuf = [] →
      maxBlockSize < ([3, 2, 1] : List Nat).length →
      bufWriteLoop (fun _ => 0) (newBufferedWriter ⟨[], []⟩) [3, 2, 1] nRet =
        bufWriteLoop (fun _ => 0)
          (wwrite (fun _ => 0) (newBufferedWriter ⟨[], []⟩) [3, 2, 1]).1
          (([3, 2, 1] : List Nat).drop
            (wwrite (fun _ => 0) (newBufferedWriter ⟨[], []⟩) [3, 2, 1]).2.1)
          (nRet + (wwrite (fun _ => 0) (newBufferedWriter ⟨[], []⟩) [3, 2, 1]).2.1)) ∧
    (∀ nRet, (newBufferedWriter ⟨[], []⟩).ibuf ≠ [] →
      (newBufferedWriter ⟨[], []⟩).ibuf.length ≤ maxBlockSize →
      maxBlockSize - (newBufferedWriter ⟨[], []⟩).ibuf.length <
        ([3, 2, 1] : List Nat).length →
      bufWriteLoop (fun _ => 0) (newBufferedWriter ⟨[], []⟩) [3, 2, 1] nRet =
        bufWriteLoop (fun _ => 0)
          (WFlush (fun _ => 0) {newBufferedWriter ⟨[], []⟩ with
            ibuf := (newBufferedWriter ⟨[], []⟩).ibuf ++
              ([3, 2, 1] : List Nat).take
                (maxBlockSize - (newBufferedWriter ⟨[], []⟩).ibuf.length)}).1
          (([3, 2, 1] : List Nat).drop
            (min (maxBlockSize - (newBufferedWriter ⟨[], []⟩).ibuf.length)
              ([3, 2, 1] : List Nat).length))
          (nRet + min (maxBlockSize - (newBufferedWriter ⟨[], []⟩).ibuf.length)
            ([3, 2, 1] : List Nat).length) ∧
      ((newBufferedWriter ⟨[], []⟩).ibuf ++
        ([3, 2, 1] : List Nat).take
          (maxBlockSize - (newBufferedWriter ⟨[], []⟩).ibuf.length)).length =
        maxBlockSize)) :=
  ⟨rfl, rfl, claim_C8 (fun _ => 0) (newBufferedWriter ⟨[], []⟩) [3, 2, 1] rfl rfl⟩

/-- C9: a failing sink write latches its error; with a latched error
every `Write`, `Flush` or `Close` returns it and leaves the writer (and
sink) untouched; `Close` flushes, returns the first latched error (none
otherwise) and latches `errClosed`, after which every call returns
`errClosed`. -/
theorem claim_C9 (c : List Nat → Nat) (st : WState) (p : List Nat) :
    (∀ e, st.werr = none → (wwrite c st p).2.2 = some e →
      (wwrite c st p).1.werr = some e) ∧
    (∀ e, st.werr = some e →
      wwrite c st p = (st, 0, some e) ∧
      WWrite c st p = (st, 0, some e) ∧
      WFlush c st = (st, some e) ∧
      WClose c st = (st, some e)) ∧
    ((WClose c st).2 = (WFlush c st).1.werr ∧
      ((WFlush c st).1.werr = none → (WClose c st).1.werr = some WErr.closed)) ∧
    (st.werr = none → (WFlush c st).1.werr = none →
      (WClose c st).1.werr = some WErr.closed ∧
      wwrite c (WClose c st).1 p = ((WClose c st).1, 0, some WErr.closed) ∧
      WFlush c (WClose c st).1 = ((WClose c st).1, some WErr.closed) ∧
      (WClose c (WClose c st).1).2 = some WErr.closed) := by
  have hlatch : ∀ e, st.werr = none → (wwrite c st p).2.2 = some e →
      (wwrite c st p).1.werr = some e := by
    intro e hn he
    rw [wwrite_eq_loop c st p hn] at he ⊢
    have h4 := (wwriteLoop_run c st p 0).2.2.2
    rw [h4 (by simp [he]), he]
  have hstuck : ∀ e, st.werr = some e →
      wwrite c st p = (st, 0, some e) ∧
      WWrite c st p = (st, 0, some e) ∧
      WFlush c st = (st, some e) ∧
      WClose c st = (st, some e) := by
    intro e he
    have hww : wwrite c st p = (st, 0, some e) := by
      rw [wwrite, if_neg (by simp [he]), he]
    have hfl : WFlush c st = (st, some e) := by
      rw [WFlush, if_neg (by simp [he]), he]
    have hcl : WClose c st = (st, some e) := by
      rw [WClose, hfl]
      simp [he]
    refine ⟨hww, ?_, hfl, hcl⟩
    by_cases hb : st.buffered = true
    · rw [WWrite, if_pos hb, bufWriteLoop, dif_neg (fun hcon => by
        rw [he] at hcon
        exact absurd hcon.2 (by simp)), if_neg (by simp [he]), he]
    · rw [WWrite, if_neg hb, hww]
  have hclose : (WClose c st).2 = (WFlush c st).1.werr ∧
      ((WFlush c st).1.werr = none → (WClose c st).1.werr = some WErr.closed) := by
    by_cases hfe : (WFlush c st).1.werr = none
    · rw [WClose, if_pos hfe]
      exact ⟨hfe.symm, fun _ => rfl⟩
    · rw [WClose, if_neg hfe]
      exact ⟨rfl, fun h => absurd h hfe⟩
  refine ⟨hlatch, hstuck, hclose, ?_⟩
  intro hn hfe
  have hcl1 : (WClose c st).1.werr = some WErr.closed := by
    rw [WClose, if_pos hfe]
  refine ⟨hcl1, ?_, ?_, ?_⟩
  · rw [wwrite, if_neg (by simp [hcl1]), hcl1]
  · rw [WFlush, if_neg (by simp [hcl1]), hcl1]
  · have hfl2 : WFlush c (WClose c st).1 = ((WClose c st).1, some WErr.closed) := by
      rw [WFlush, if_neg (by simp [hcl1]), hcl1]
    rw [WClose, hfl2]
    simp [hcl1]

/-- C9 on a fresh unbuffered writer and the write `[1]`. -/
theorem claim_C9_inst :
    (∀ e, (newWriter ⟨[], []⟩).werr = some e →
      wwrite (fun _ => 0) (newWriter ⟨[], []⟩) [1] = (newWriter ⟨[], []⟩, 0, some e)) ∧
    ((newWriter ⟨[], []⟩).werr = none) ∧
    ((WClose (fun _ => 0) (newWriter ⟨[], []⟩)).2 =
      (WFlush (fun _ => 0) (newWriter ⟨[], []⟩)).1.werr) :=
  ⟨fun e he => ((claim_C9 (fun _ => 0) (newWriter ⟨[], []⟩) [1]).2.1 e he).1,
    rfl, (claim_C9 (fun _ => 0) (newWriter ⟨[], []⟩) [1]).2.2.1.1⟩

/-- C10: under `encodeBlock`'s preconditions the bounds-checked matcher
(which guards every `load32`/`load64` index, table index, table store
and `uint16` cast) succeeds and agrees with the unchecked one, and the
emitted bytes fit the promised `dst` capacity. -/
theorem claim_C10 (src : List Nat) (hsrc : BytesP src) (h17 : 17 ≤ src.length)
    (h65536 : src.length ≤ 65536) :
    encLoopC src (shiftFor src.length) (src.length - inputMargin)
      (.search (fun _ => 0) 0 (hash (load32 src 1) (shiftFor src.length)) 0 1) =
      some (encodeBlockOps src) ∧
    (opsBytes (encodeBlockOps src)).length ≤ src.length + src.length / 6 := by
  have hinv : PhaseInv src (src.length - 15)
      (.search (fun _ => 0) 0 (hash (load32 src 1) (shiftFor src.length)) 0 1) := by
    simp only [PhaseInv]
    exact ⟨fun j => by omega, by omega, by omega⟩
  obtain ⟨-, -, hCost, -⟩ := encodeBlockOps_spec src hsrc h17 h65536
  constructor
  · rw [show src.length - inputMargin = src.length - 15 from rfl,
      encLoopC_eq src (shiftFor src.length) hsrc h17 h65536 _ hinv,
      encodeBlockOps, show src.length - inputMargin = src.length - 15 from rfl]
  · omega

/-- C10 at a concrete 18-byte block. -/
theorem claim_C10_inst :
    BytesP (List.replicate 18 97) ∧ 17 ≤ (List.replicate 18 97).length ∧
    (List.replicate 18 97).length ≤ 65536 ∧
    (encLoopC (List.replicate 18 97) (shiftFor (List.replicate 18 97).length)
      ((List.replicate 18 97).length - inputMargin)
      (.search (fun _ => 0) 0
        (hash (load32 (List.replicate 18 97) 1) (shiftFor (List.replicate 18 97).length))
        0 1) = some (encodeBlockOps (List.replicate 18 97)) ∧
    (opsBytes (encodeBlockOps (List.replicate 18 97))).length ≤
      (List.replicate 18 97).length + (List.replicate 18 97).length / 6) :=
  ⟨bytesP_rep18, by decide, by decide,
    claim_C10 (List.replicate 18 97) bytesP_rep18 (by decide) (by decide)⟩

end Snappy
